import Mathlib

/-!
Verification of the MerKurio pattern-search core against its specification.

The Rust sources are embedded shallowly:
* byte strings (`&[u8]`, `String`) become `List Nat`;
* the machine word is 64 bits (64-bit target), so `usize` arithmetic that can
  overflow carries an explicit `% 2 ^ 64`; shift amounts written by the source
  are masked (`% 64`) exactly where Rust release builds mask them;
* fallible functions return `Except`/`Option`;
* iterators become explicit state (the BNDMq match iterator keeps only the
  window index `i` between `next()` calls, mirrored here).

Sources: `src/pattern_preprocessing.rs`, `src/pattern_matching.rs`,
`src/helpers.rs`, `src/logger.rs`, `src/cmd_extract.rs`, `src/cmd_tag.rs`.
-/

/-! ## Pattern preprocessing (`src/pattern_preprocessing.rs`) -/

/-- Error kinds of `pattern_matching.rs` (`PatternError`). -/
inductive PatternError where
  | invalidQGramLength (q : Nat)
  | emptyPattern
  | patternTooLong (len max : Nat)
deriving DecidableEq, Repr

/-- The mask table built by the loop in `generate_masks`
(`pattern_preprocessing.rs:37-39`): `masks[pattern[j]] |= 1 << (m - j - 1)`.
The 256-entry array is modelled as a total function from byte values. -/
def masksFun (p : List Nat) : Nat → Nat :=
  (List.range p.length).foldl
    (fun ms j => fun b => if b = p.getD j 0 then ms b ||| (1 <<< (p.length - j - 1)) else ms b)
    (fun _ => 0)

/-- The accept state `1 << (m - 1)` of `generate_masks`
(`pattern_preprocessing.rs:40`). -/
def acceptMask (p : List Nat) : Nat := 1 <<< (p.length - 1)

/-- `generate_masks` (`pattern_preprocessing.rs:24-43`) on a 64-bit target
(`mem::size_of::<usize>() == 8`): patterns longer than 64 are rejected with
`PatternTooLong`, otherwise the mask table and accept state are returned. -/
def generate_masks (p : List Nat) : Except PatternError ((Nat → Nat) × Nat) :=
  if 64 < p.length then .error (.patternTooLong p.length 64)
  else .ok (masksFun p, acceptMask p)

/-! ## BNDMq (`src/pattern_matching.rs`) -/

/-- The naive-scan predicate: the pattern `p` occurs in `t` at start offset
`pos`.  This is the specification side of claim C1. -/
def occursAt (p t : List Nat) (pos : Nat) : Prop :=
  pos + p.length ≤ t.length ∧ ∀ v, v < p.length → p.getD v 0 = t.getD (pos + v) 0

instance (p t : List Nat) (pos : Nat) : Decidable (occursAt p t pos) := by
  unfold occursAt; infer_instance

/-- All occurrences of `p` in `t` by a naive substring scan, in increasing
order of start offset, overlaps included. -/
def naiveOccs (p t : List Nat) : List Nat :=
  (List.range (t.length + 1 - p.length)).filter fun pos => decide (occursAt p t pos)

/-- The q-gram seeding of the BNDMq window at outer index `i`
(`pattern_matching.rs:177-180`): `state = masks[text[i-1]]`, then
`state &= masks[text[i+ii]] << (ii+1)` for `ii in 0..q-1`.  The shifted mask
value wraps at the 64-bit word. -/
def seedState (p t : List Nat) (q i : Nat) : Nat :=
  (List.range (q - 1)).foldl
    (fun st ii => st &&& ((masksFun p (t.getD (i + ii) 0) <<< (ii + 1)) % 2 ^ 64))
    (masksFun p (t.getD (i - 1) 0))

/-- The inner backward scan of BNDMq (`pattern_matching.rs:183-203`, the same
loop as `find_matches`, `pattern_matching.rs:102-120`).  Arguments after
`first` are the pre-decrement value of `j`, the current state mask and the
current window index `self.i` (updated to `j` on a non-final accept).  The
result is the emitted match, if any, together with the final window index.
The `0` case is unreachable from `new`-validated parameters: the state mask
dies before `j` reaches `first`, and at `first` an accept emits. -/
def innerScan (p t : List Nat) (first : Nat) : Nat → Nat → Nat → Option Nat × Nat
  | 0, _, st => (none, st)
  | j + 1, state, st =>
    if acceptMask p ≤ state then
      if first < j then
        let state2 := ((state <<< 1) % 2 ^ 64) &&& masksFun p (t.getD (j - 1) 0)
        if state2 = 0 then (none, j) else innerScan p t first j state2 j
      else (some j, st)
    else
      let state2 := ((state <<< 1) % 2 ^ 64) &&& masksFun p (t.getD (j - 1) 0)
      if state2 = 0 then (none, st) else innerScan p t first j state2 st

/-- Proof-side description of the BNDMq inner-loop state mask: `stateAt p t q i k`
is the state at window `i` after the seeding followed by `k` update steps
`state = (state << 1) & masks[text[j - 1]]` (`pattern_matching.rs:198`), the
step with index `k` happening at `j = i - k`. -/
def stateAt (p t : List Nat) (q i : Nat) : Nat → Nat
  | 0 => seedState p t q i
  | k + 1 => ((stateAt p t q i k <<< 1) % 2 ^ 64) &&& masksFun p (t.getD (i - k - 2) 0)

/-- One call of `Matches::next` (`pattern_matching.rs:169-208`) from window
index `i`: `None` when the text is exhausted, otherwise the next match and the
iterator's stored window index.  The outer `while` loop is unrolled on a fuel
argument; the fuel is adequate because `i` strictly increases each iteration. -/
def bndmqNextGo (p t : List Nat) (q : Nat) : Nat → Nat → Option (Nat × Nat)
  | 0, _ => none
  | fuel + 1, i =>
    if p.length > t.length then none
    else if i ≤ t.length - q + 1 then
      let first := i - (p.length - q + 1)
      let seed := seedState p t q i
      if seed = 0 then bndmqNextGo p t q fuel (i + (p.length - q + 1))
      else
        match innerScan p t first i seed i with
        | (some j, st) => some (j, st + (p.length - q + 1))
        | (none, st) => bndmqNextGo p t q fuel (st + (p.length - q + 1))
    else none

/-- `Matches::next` with adequate fuel (at most `text.len()` outer iterations
happen, since `i ≥ 1` strictly increases and is bounded by `n - q + 1`). -/
def bndmqNext (p t : List Nat) (q i : Nat) : Option (Nat × Nat) :=
  bndmqNextGo p t q (t.length + 1) i

/-- Collecting the BNDMq match iterator from window index `i`
(`find_iter` followed by repeated `next`, `pattern_matching.rs:133-140` and
`165-209`).  Fuel-unrolled; each yielded match strictly increases `i`. -/
def bndmqMatchesGo (p t : List Nat) (q : Nat) : Nat → Nat → List Nat
  | 0, _ => []
  | fuel + 1, i =>
    match bndmqNext p t q i with
    | none => []
    | some ji => ji.1 :: bndmqMatchesGo p t q fuel ji.2

/-- `BNDMq::find_all` = `find_iter(text).collect()`
(`pattern_matching.rs:151-153`); the iterator starts at `i = m - q + 1`. -/
def bndmqFindAll (p t : List Nat) (q : Nat) : List Nat :=
  bndmqMatchesGo p t q (t.length + 2) (p.length - q + 1)

/-- The loop of `find_matches` with the `find_match` callback `|_| true`
(`pattern_matching.rs:82-130`): returns `true` on the first emitted match. -/
def bndmqFindMatchGo (p t : List Nat) (q : Nat) : Nat → Nat → Bool
  | 0, _ => false
  | fuel + 1, i =>
    if p.length > t.length then false
    else if i ≤ t.length - q + 1 then
      let first := i - (p.length - q + 1)
      let seed := seedState p t q i
      if seed = 0 then bndmqFindMatchGo p t q fuel (i + (p.length - q + 1))
      else
        match innerScan p t first i seed i with
        | (some _, _) => true
        | (none, st) => bndmqFindMatchGo p t q fuel (st + (p.length - q + 1))
    else false

/-- `BNDMq::find_match` (`pattern_matching.rs:128-130`). -/
def bndmqFindMatch (p t : List Nat) (q : Nat) : Bool :=
  bndmqFindMatchGo p t q (t.length + 1) (p.length - q + 1)

/-! ## Legacy BNDM (`src/pattern_matching.rs:268-300`) -/

/-- The inner `while state_mask != 0` loop of `BNDM::find_all`
(`pattern_matching.rs:283-296`).  Arguments: window start `i`, pre-decrement
`j`, state mask, `last`.  Returns the final `last` and whether an occurrence
at `i` was pushed.  The `0` case is unreachable (the state dies after at most
`m` shifts). -/
def bndmInnerGo (p t : List Nat) (i : Nat) : Nat → Nat → Nat → Nat × Bool
  | 0, _, last => (last, false)
  | j + 1, state, last =>
    if state = 0 then (last, false)
    else
      let state1 := state &&& masksFun p (t.getD (i + j) 0)
      if state1 &&& acceptMask p ≠ 0 then
        if 0 < j then bndmInnerGo p t i j ((state1 <<< 1) % 2 ^ 64) j
        else (last, true)
      else bndmInnerGo p t i j ((state1 <<< 1) % 2 ^ 64) last

/-- The outer `while i <= n - m` loop of `BNDM::find_all`
(`pattern_matching.rs:277-298`), fuel-unrolled.  The initial state mask is
`(1 << m) - 1`; Rust release builds mask the shift amount, so for `m = 64`
the shift amount wraps to `0` and the initial state is `0` (debug builds
panic at the same spot). -/
def bndmFindAllGo (p t : List Nat) : Nat → Nat → List Nat
  | 0, _ => []
  | fuel + 1, i =>
    if i ≤ t.length - p.length then
      let r := bndmInnerGo p t i p.length ((1 <<< (p.length % 64)) - 1) p.length
      (if r.2 then [i] else []) ++ bndmFindAllGo p t fuel (i + r.1)
    else []

/-- `BNDM::find_all` (`pattern_matching.rs:268-300`). -/
def bndmFindAll (p t : List Nat) : List Nat :=
  if p.length > t.length then [] else bndmFindAllGo p t (t.length + 1) 0

/-! ## Pattern preparation and algorithm selection (`src/helpers.rs`) -/

/-- Byte-wise lexicographic comparison of byte strings, as used by Rust's
`Ord` on `String`/`Vec<u8>` (`sort_unstable`, `helpers.rs:125`). -/
def lexLe : List Nat → List Nat → Bool
  | [], _ => true
  | _ :: _, [] => false
  | a :: as, b :: bs => if a < b then true else if b < a then false else lexLe as bs

/-- Ordered insertion for `sortLex`. -/
def insertLex (x : List Nat) : List (List Nat) → List (List Nat)
  | [] => [x]
  | y :: ys => if lexLe x y then x :: y :: ys else y :: insertLex x ys

/-- A sort by `lexLe`, modelling `pattern_list.sort_unstable()`
(`helpers.rs:125`); since `lexLe` is a total antisymmetric order, every
correct sort produces this result. -/
def sortLex : List (List Nat) → List (List Nat)
  | [] => []
  | x :: xs => insertLex x (sortLex xs)

/-- `Vec::dedup` (`helpers.rs:126`): remove adjacent duplicates. -/
def dedupAdj : List (List Nat) → List (List Nat)
  | [] => []
  | [a] => [a]
  | a :: b :: rest => if a = b then dedupAdj (b :: rest) else a :: dedupAdj (b :: rest)

/-- The final statements of `parse_pattern_list` (`helpers.rs:123-132`): drop
empty patterns, sort, deduplicate, and fail with the `EmptyPatternSet` error
when nothing remains. -/
def preparePatterns (zs : List (List Nat)) : Except String (List (List Nat)) :=
  if (dedupAdj (sortLex (zs.filter fun x => !x.isEmpty))).isEmpty then
    .error "No k-mers found in file or provided sequence."
  else .ok (dedupAdj (sortLex (zs.filter fun x => !x.isEmpty)))

/-- `parse_pattern_list` (`helpers.rs:76-133`) on an in-memory pattern list
(`kmer_file = None`, `kmer_seq = Some patterns`).  The out-of-scope transforms
(Unicode case folding, the IUPAC reverse complement of the `needletail` crate,
canonicalization) are passed in as function parameters; the claims leave them
disabled.  Returns the prepared list or the `EmptyPatternSet` error. -/
def parse_pattern_list (toLowerF toUpperF revComplF canonF : List Nat → List Nat)
    (patterns : List (List Nat))
    (reverse_complement canonical lowercase uppercase : Bool) :
    Except String (List (List Nat)) :=
  let l1 := if lowercase then patterns.map toLowerF
            else if uppercase then patterns.map toUpperF
            else patterns
  let l2 := if reverse_complement then l1 ++ l1.map revComplF else l1
  let l3 := if canonical then l2.map canonF else l2
  preparePatterns l3

/-- `recommend_aho_corasick` (`helpers.rs:202-211`): `.max().unwrap()` panics
on an empty list, modelled by `none`. -/
def recommend_aho_corasick (pattern_list : List (List Nat)) : Option Bool :=
  match (pattern_list.map List.length).max? with
  | none => none
  | some max_len => some (14 ≤ pattern_list.length || 64 < max_len)

/-- The algorithm selection of `extract_records` (`cmd_extract.rs:165-171`):
case-insensitive search forces Aho-Corasick; otherwise, if the user pinned
neither `q` nor Aho-Corasick, the recommendation decides. -/
def selectAlgorithm (case_insensitive : Bool) (q_size : Option Nat)
    (aho_corasick : Bool) (pattern_list : List (List Nat)) : Option Bool :=
  if case_insensitive then some true
  else if q_size.isNone && !aho_corasick then recommend_aho_corasick pattern_list
  else some aho_corasick

/-! ## Buffered text logger (`src/logger.rs:18-83`) -/

/-- State of `BufferedLogger`.  The optional sink is modelled by `hasWriter`
plus the accumulated bytes `written`; `records` is the in-memory line list. -/
structure BufferedLogger where
  buffer : String
  hasWriter : Bool
  written : String
  bufferSize : Nat
  records : List String
deriving DecidableEq, Repr

/-- `BufferedLogger::flush` (`logger.rs:70-77`): writes and clears the buffer
when a sink is attached and the buffer is non-empty, otherwise does nothing. -/
def BufferedLogger.flush (l : BufferedLogger) : BufferedLogger :=
  if l.hasWriter ∧ l.buffer ≠ "" then
    { l with written := l.written ++ l.buffer, buffer := "" }
  else l

/-- The shared tail of `log_record`/`log_fields` (`logger.rs:34-36`, `57-59`):
flush when the buffer reached the threshold. -/
def BufferedLogger.flushIfFull (l : BufferedLogger) : BufferedLogger :=
  if l.bufferSize ≤ l.buffer.utf8ByteSize then l.flush else l

/-- `BufferedLogger::log_record` (`logger.rs:30-37`). -/
def BufferedLogger.log_record (l : BufferedLogger) (record : String) : BufferedLogger :=
  BufferedLogger.flushIfFull
    { l with records := l.records ++ [record], buffer := l.buffer ++ record }

/-- The line format of `BufferedLogger::log_fields` (`logger.rs:41-60`):
`"{prefix}\t{id}\t{pattern}\t{index}\n"` (the record id is assumed valid
UTF-8, as the source's `expect` demands). -/
def formatFields (pre id pat : String) (index : Nat) : String :=
  pre ++ "\t" ++ id ++ "\t" ++ pat ++ "\t" ++ toString index ++ "\n"

/-- `BufferedLogger::log_fields` (`logger.rs:41-60`): the formatted line is
appended to `records` and piecewise to the buffer, then flushed when full. -/
def BufferedLogger.log_fields (l : BufferedLogger) (pre id pat : String)
    (index : Nat) : BufferedLogger :=
  BufferedLogger.flushIfFull
    { l with records := l.records ++ [formatFields pre id pat index],
             buffer := l.buffer ++ formatFields pre id pat index }

/-- One client call to the buffered logger. -/
inductive LogOp where
  | record (s : String)
  | fields (pre id pat : String) (index : Nat)
  | doFlush
deriving DecidableEq, Repr

/-- Apply one logger call. -/
def applyLogOp (l : BufferedLogger) : LogOp → BufferedLogger
  | .record s => l.log_record s
  | .fields pre id pat index => l.log_fields pre id pat index
  | .doFlush => l.flush

/-- Apply a sequence of logger calls. -/
def applyLogOps (l : BufferedLogger) (ops : List LogOp) : BufferedLogger :=
  ops.foldl applyLogOp l

/-- The formatted line a call appends to `records`, if any. -/
def logOpLine : LogOp → Option String
  | .record s => some s
  | .fields pre id pat index => some (formatFields pre id pat index)
  | .doFlush => none

/-! ## JSON logger finalization (`src/logger.rs:158-190`) -/

/-- `JsonLogger::finalize` (`logger.rs:158-190`) at the level of the top-level
key/value pairs it appends after closing the `matching_records` array: always
`meta_information`, then `paired_end_reads_statistics` exactly when the
optional argument is `Some`, then `pattern_hit_counts`, then
`summary_statistics`.  JSON values are abstracted by the type `α`. -/
def finalizeAppendedKeys (α : Type) (meta hits summary : α)
    (pairedEndStats : Option α) : List (String × α) :=
  [("meta_information", meta)] ++
    (match pairedEndStats with
     | some v => [("paired_end_reads_statistics", v)]
     | none => []) ++
    [("pattern_hit_counts", hits), ("summary_statistics", summary)]

/-- The top-level keys of the finalized JSON document, in order: the
`matching_records` array is opened by `JsonLogger::new` (`logger.rs:95-105`),
the rest by `finalize`. -/
def jsonDocKeys (α : Type) (meta hits summary : α) (paired : Option α) : List String :=
  "matching_records" :: (finalizeAppendedKeys α meta hits summary paired).map Prod.fst

/-- The finalization call of `extract_records` (`cmd_extract.rs:700-713`):
`jl.finalize(..., Some(&paired_end_stats))` is passed `Some` whether or not a
second input file was given (`args.in_fastq_2` only changes the fields inside
the statistics object, not its presence). -/
def extractFinalizeDocKeys (in_fastq_2 : Option Unit) : List String :=
  jsonDocKeys Unit () () () (some ())

/-- The finalization call of `tag_records` (`cmd_tag.rs:680-685`):
`jl.finalize(..., None)`. -/
def tagFinalizeDocKeys : List String :=
  jsonDocKeys Unit () () () none

/-! ## Extract driver hit counting (`src/cmd_extract.rs:321-397`) -/

/-- Modelled from the spec: the overlapping match iterator of the external
`aho_corasick` crate (spec section 4.3): all `(pattern_index, start_offset)`
pairs, ordered left-to-right by start offset with ties broken by increasing
pattern index. -/
def acFindOverlapping (patterns : List (List Nat)) (t : List Nat) : List (Nat × Nat) :=
  (List.range t.length).flatMap fun s =>
    (List.range patterns.length).filterMap fun idx =>
      if decide (occursAt (patterns.getD idx []) t s) then some (idx, s) else none

/-- The per-record effect of the Aho-Corasick branch of `extract_records` on
`pattern_hit_counts` with logging active (`cmd_extract.rs:331-357`):
`pattern_hit_counts[mat.pattern()] += 1` for every overlapping match. -/
def extractACHitCounts (patterns : List (List Nat)) (counts : List Nat)
    (t : List Nat) : List Nat :=
  (acFindOverlapping patterns t).foldl
    (fun cs mt => cs.set mt.1 (cs.getD mt.1 0 + 1)) counts

/-- The per-record effect of the BNDMq branch of `extract_records` on
`pattern_hit_counts` with logging active (`cmd_extract.rs:362-387`): for each
`(pattern, matcher)` pair, the counter is incremented once when `find_iter`
produced at least one position.  `pqs` pairs each pattern with its `q`. -/
def extractBndmqHitCounts (pqs : List (List Nat × Nat)) (counts : List Nat)
    (t : List Nat) : List Nat :=
  (List.range pqs.length).foldl
    (fun cs idx =>
      if bndmqFindAll (pqs.getD idx ([], 1)).1 t (pqs.getD idx ([], 1)).2 ≠ [] then
        cs.set idx (cs.getD idx 0 + 1)
      else cs)
    counts

/-! ## Tag driver record processing (`src/cmd_tag.rs:453-499`) -/

/-- A SAM/BAM tag value as seen by `process_record`: a string value or any
other variant (`tags::TagValue`). -/
inductive TagValue where
  | str (v : List Nat)
  | other
deriving DecidableEq, Repr

/-- Rust `str::split(',')` on bytes: splitting the empty string yields one
empty entry. -/
def splitComma : List Nat → List (List Nat)
  | [] => [[]]
  | c :: rest =>
    match splitComma rest with
    | [] => []
    | g :: gs => if c = 44 then [] :: g :: gs else (c :: g) :: gs

/-- `Vec::join(",")` on byte strings. -/
def joinComma : List (List Nat) → List Nat
  | [] => []
  | [x] => x
  | x :: y :: rest => x ++ 44 :: joinComma (y :: rest)

/-- The gating of `process_record` (`cmd_tag.rs:453-467`): `filter_matching`
keeps only matching records, `invert_match` keeps only non-matching records,
otherwise all records are kept. -/
def shouldKeep (filter_matching invert_match : Bool) (kmers_found : List (List Nat)) : Bool :=
  if filter_matching then !kmers_found.isEmpty
  else if invert_match then kmers_found.isEmpty
  else true

/-- The tag-reading `match` of `process_record` (`cmd_tag.rs:470-481`): an
empty pre-existing string value contributes nothing, a non-empty one is split
on `','` and appended to the found k-mers, a missing tag contributes nothing,
any non-string value is an error. -/
def updatedKmers (kmers_found : List (List Nat)) (prior : Option TagValue) :
    Except String (List (List Nat)) :=
  match prior with
  | some (TagValue.str []) => .ok kmers_found
  | some (TagValue.str v) => .ok (kmers_found ++ splitComma v)
  | none => .ok kmers_found
  | some TagValue.other => .error "Invalid tag value format. Expected string value."

/-- The tagging tail of `process_record` (`cmd_tag.rs:453-499`): gate the
record, extend the found k-mers with the pre-existing tag entries, sort,
deduplicate, and attach the comma-joined value.  `ok none` means the record
was skipped by gating; `ok (some v)` means the kept record is written with
tag value `v`. -/
def processRecordTagValue (kmers_found : List (List Nat)) (prior : Option TagValue)
    (filter_matching invert_match : Bool) : Except String (Option (List Nat)) :=
  if shouldKeep filter_matching invert_match kmers_found = false then .ok none
  else
    match updatedKmers kmers_found prior with
    | .error e => .error e
    | .ok l => .ok (some (joinComma (dedupAdj (sortLex l))))

/-- Modelled from the spec's words for claim C6 (refinement comparison only):
"the comma-joined, lexicographically sorted, duplicate-free union of the
entries obtained by splitting any pre-existing string value of the configured
tag on ',' and the patterns newly matched". -/
def specTagValue (kmers_found : List (List Nat)) (prior : Option TagValue) : List Nat :=
  joinComma (dedupAdj (sortLex (kmers_found ++
    (match prior with
     | some (TagValue.str v) => splitComma v
     | _ => []))))

/-- The amended prior-entry semantics for claim C6: a non-empty pre-existing
string value is split on `','`; an empty value and a missing tag contribute
nothing. -/
def priorEntries : Option TagValue → List (List Nat)
  | some (TagValue.str []) => []
  | some (TagValue.str v) => splitComma v
  | _ => []

/-! ## Generic bit-level and list helpers -/

theorem lt_two_pow_of_bits {x n : Nat} (h : ∀ i, n ≤ i → x.testBit i = false) :
    x < 2 ^ n := by
  have hx : x = x % 2 ^ n := by
    apply Nat.eq_of_testBit_eq
    intro i
    rw [Nat.testBit_mod_two_pow]
    by_cases hi : i < n
    · simp [hi]
    · simp [hi, h i (by omega)]
  rw [hx]
  exact Nat.mod_lt _ (Nat.pos_pow_of_pos n (by omega))

theorem testBit_two_pow_iff {n k : Nat} : (2 ^ n).testBit k = true ↔ n = k := by
  constructor
  · intro h
    by_contra hne
    rw [Nat.testBit_two_pow_of_ne hne] at h
    exact Bool.false_ne_true h
  · intro h; subst h; exact Nat.testBit_two_pow_self

theorem getD_set_eq (l : List Nat) (m i a : Nat) :
    (l.set m a).getD i 0 = if m = i ∧ m < l.length then a else l.getD i 0 := by
  simp only [List.getD_eq_getElem?_getD, List.getElem?_set]
  by_cases h : m = i
  · subst h
    by_cases hl : m < l.length
    · simp [hl]
    · rw [if_pos rfl, if_neg hl, if_neg (by omega)]
      rw [List.getElem?_eq_none (by omega)]
  · simp [h]

theorem foldl_and_testBit (L : List Nat) (g : Nat → Nat) (init : Nat) (b : Nat) :
    ((L.foldl (fun st x => st &&& g x) init).testBit b) =
      (init.testBit b && L.all fun x => (g x).testBit b) := by
  induction L generalizing init with
  | nil => simp
  | cons x L ih =>
    simp only [List.foldl_cons, List.all_cons, ih, Nat.testBit_and]
    rw [Bool.and_assoc]

/-! ## Mask table characterization (claim C3 groundwork) -/

theorem masksFun_aux (p : List Nat) (L : List Nat) (ms0 : Nat → Nat) (b k : Nat) :
    ((L.foldl
        (fun ms j => fun b' =>
          if b' = p.getD j 0 then ms b' ||| (1 <<< (p.length - j - 1)) else ms b')
        ms0) b).testBit k = true ↔
      ((ms0 b).testBit k = true ∨ ∃ j ∈ L, p.getD j 0 = b ∧ k = p.length - j - 1) := by
  induction L generalizing ms0 with
  | nil => simp
  | cons j L ih =>
    simp only [List.foldl_cons]
    rw [ih]
    constructor
    · rintro (h | h)
      · by_cases hb : b = p.getD j 0
        · rw [if_pos hb, Nat.testBit_or, Nat.one_shiftLeft] at h
          have h2 : (ms0 b).testBit k = true ∨ ((2 ^ (p.length - j - 1) : Nat)).testBit k = true := by
            simpa using h
          rcases h2 with h' | h'
          · exact .inl h'
          · exact .inr ⟨j, by simp, hb.symm, (testBit_two_pow_iff.mp h').symm⟩
        · rw [if_neg hb] at h
          exact .inl h
      · obtain ⟨j', hj', hpb, hk⟩ := h
        exact .inr ⟨j', by simp [hj'], hpb, hk⟩
    · rintro (h | ⟨j', hj', hpb, hk⟩)
      · left
        by_cases hb : b = p.getD j 0
        · rw [if_pos hb, Nat.testBit_or, h]; rfl
        · rwa [if_neg hb]
      · rcases List.mem_cons.mp hj' with h' | h'
        · subst h'
          left
          rw [if_pos hpb.symm, Nat.testBit_or, Nat.one_shiftLeft, hk]
          simp [testBit_two_pow_iff]
        · exact .inr ⟨j', h', hpb, hk⟩

theorem masksFun_testBit_exists (p : List Nat) (b k : Nat) :
    ((masksFun p) b).testBit k = true ↔
      ∃ j, j < p.length ∧ p.getD j 0 = b ∧ k = p.length - 1 - j := by
  unfold masksFun
  rw [masksFun_aux]
  simp only [Nat.zero_testBit, List.mem_range]
  constructor
  · rintro (h | ⟨j, hj, hb, hk⟩)
    · exact absurd h (by simp)
    · exact ⟨j, hj, hb, by omega⟩
  · rintro ⟨j, hj, hb, hk⟩
    exact .inr ⟨j, hj, hb, by omega⟩

theorem masksFun_testBit (p : List Nat) (b k : Nat) :
    ((masksFun p) b).testBit k = true ↔
      k < p.length ∧ p.getD (p.length - 1 - k) 0 = b := by
  rw [masksFun_testBit_exists]
  constructor
  · rintro ⟨j, hj, hb, hk⟩
    constructor
    · omega
    · have : p.length - 1 - k = j := by omega
      rwa [this]
  · rintro ⟨hk, hb⟩
    exact ⟨p.length - 1 - k, by omega, hb, by omega⟩

theorem masksFun_lt (p : List Nat) (b : Nat) : (masksFun p) b < 2 ^ p.length := by
  apply lt_two_pow_of_bits
  intro i hi
  by_contra h
  have := (masksFun_testBit p b i).mp (by revert h; cases ((masksFun p) b).testBit i <;> simp)
  omega

theorem acceptMask_eq (p : List Nat) : acceptMask p = 2 ^ (p.length - 1) := by
  simp [acceptMask, Nat.one_shiftLeft]

theorem accept_le_iff {p : List Nat} {x : Nat} (hm : 1 ≤ p.length)
    (hx : x < 2 ^ p.length) :
    (acceptMask p ≤ x ↔ x.testBit (p.length - 1) = true) := by
  rw [acceptMask_eq]
  constructor
  · intro h
    by_contra hbit
    have hbit' : x.testBit (p.length - 1) = false := by
      revert hbit; cases x.testBit (p.length - 1) <;> simp
    have : x < 2 ^ (p.length - 1) := by
      apply lt_two_pow_of_bits
      intro i hi
      by_cases heq : i = p.length - 1
      · subst heq; exact hbit'
      · exact Nat.testBit_lt_two_pow (lt_of_lt_of_le hx (Nat.pow_le_pow_right (by omega) (by omega)))
    omega
  · exact Nat.testBit_implies_ge

/-! ## Claim C3: mask generation -/

/-- C3: for every non-empty pattern of length `m ≤ 64`, `generate_masks`
succeeds; in the returned table, `masks[b]` has bit `m-1-j` set exactly for
the positions `j < m` with `pattern[j] = b` and no other bits; the accept mask
equals `1 <<< (m-1)`; every pattern of length `m > 64` fails with
`PatternTooLong`. -/
theorem c3_generate_masks (p : List Nat) (hne : p ≠ []) (hlen : p.length ≤ 64) :
    generate_masks p = .ok (masksFun p, acceptMask p) ∧
    acceptMask p = 1 <<< (p.length - 1) ∧
    (∀ b k, ((masksFun p) b).testBit k = true ↔
      ∃ j, j < p.length ∧ p.getD j 0 = b ∧ k = p.length - 1 - j) ∧
    (∀ p2 : List Nat, 64 < p2.length →
      generate_masks p2 = .error (.patternTooLong p2.length 64)) := by
  refine ⟨?_, rfl, masksFun_testBit_exists p, ?_⟩
  · simp [generate_masks, Nat.not_lt.mpr hlen]
  · intro p2 h2
    simp [generate_masks, h2]

/-- Witness for C3 at the pattern `"3$$X3"` of scenario S3. -/
theorem c3_generate_masks_witness :
    ([51, 36, 36, 88, 51] : List Nat) ≠ [] ∧
    ([51, 36, 36, 88, 51] : List Nat).length ≤ 64 ∧
    generate_masks [51, 36, 36, 88, 51] =
      .ok (masksFun [51, 36, 36, 88, 51], acceptMask [51, 36, 36, 88, 51]) :=
  ⟨by decide, by decide,
    (c3_generate_masks [51, 36, 36, 88, 51] (by decide) (by decide)).1⟩

/-! ## Claim C4: JSON finalization key order -/

/-- C4 counterexample: a single-input extract run still finalizes with the
`paired_end_reads_statistics` key, because `extract_records` passes
`Some(&paired_end_stats)` unconditionally (`cmd_extract.rs:708-713`); the
claim predicts the key is absent. -/
theorem c4_counterexample :
    extractFinalizeDocKeys none =
      ["matching_records", "meta_information", "paired_end_reads_statistics",
        "pattern_hit_counts", "summary_statistics"] ∧
    "paired_end_reads_statistics" ∈ extractFinalizeDocKeys none :=
  ⟨rfl, by rw [(by rfl :
      extractFinalizeDocKeys none =
        ["matching_records", "meta_information", "paired_end_reads_statistics",
          "pattern_hit_counts", "summary_statistics"])]; exact List.mem_cons_of_mem _ (List.mem_cons_of_mem _ (List.mem_cons_self _ _))⟩

/-- C4 amended: the finalized document's keys are, in order,
`matching_records`, `meta_information`, then `paired_end_reads_statistics`
exactly when the finalize call receives paired statistics, then
`pattern_hit_counts`, then `summary_statistics`; the extract driver always
passes paired statistics (even for single input), the tag driver never
does. -/
theorem c4_finalize_key_order :
    (∀ (α : Type) (meta hits summary : α) (paired : Option α),
      jsonDocKeys α meta hits summary paired =
        ["matching_records", "meta_information"] ++
          (if paired.isSome then ["paired_end_reads_statistics"] else []) ++
          ["pattern_hit_counts", "summary_statistics"]) ∧
    (∀ o : Option Unit,
      extractFinalizeDocKeys o =
        ["matching_records", "meta_information", "paired_end_reads_statistics",
          "pattern_hit_counts", "summary_statistics"]) ∧
    tagFinalizeDocKeys =
      ["matching_records", "meta_information", "pattern_hit_counts",
        "summary_statistics"] := by
  refine ⟨?_, ?_, rfl⟩
  · intro α meta hits summary paired
    cases paired <;> rfl
  · intro o; rfl

/-! ## Claim C8: algorithm selection -/

theorem max?_map_length_spec (l : List (List Nat)) (hne : l ≠ []) :
    ∃ M, (l.map List.length).max? = some M ∧
      (∀ x ∈ l, x.length ≤ M) ∧ ∃ x ∈ l, x.length = M := by
  cases h : (l.map List.length).max? with
  | none =>
    rw [List.max?_eq_none_iff] at h
    exact absurd (List.map_eq_nil_iff.mp h) hne
  | some M =>
    refine ⟨M, rfl, ?_, ?_⟩
    · intro x hx
      have hub := (List.max?_le_iff (fun a b c => max_le_iff) h).mp (le_refl M)
      exact hub _ (List.mem_map_of_mem List.length hx)
    · have hmem : M ∈ l.map List.length := List.max?_mem (fun _ _ => max_choice _ _) h
      obtain ⟨x, hx, hxl⟩ := List.mem_map.mp hmem
      exact ⟨x, hx, hxl⟩

/-- C8: with a non-empty prepared pattern list, the selector chooses
Aho-Corasick whenever case-insensitive matching is requested; otherwise, when
the user pinned neither `q` nor Aho-Corasick, it recommends Aho-Corasick iff
the pattern count is at least 14 or some pattern is longer than 64 bytes, and
BNDMq otherwise. -/
theorem c8_algorithm_selection (l : List (List Nat)) (hne : l ≠ []) :
    (∀ (q_size : Option Nat) (ac : Bool), selectAlgorithm true q_size ac l = some true) ∧
    selectAlgorithm false none false l =
      some (decide (14 ≤ l.length) || decide (∃ x ∈ l, 64 < x.length)) := by
  constructor
  · intro q_size ac; rfl
  · obtain ⟨M, hM, hub, x, hx, hxl⟩ := max?_map_length_spec l hne
    have hiff : (64 < M) ↔ (∃ x ∈ l, 64 < x.length) := by
      constructor
      · intro h; exact ⟨x, hx, by omega⟩
      · rintro ⟨y, hy, hyl⟩
        exact lt_of_lt_of_le hyl (hub y hy)
    simp [selectAlgorithm, recommend_aho_corasick, hM, decide_eq_decide.mpr hiff]

/-- Witness for C8 at the two-pattern list of scenario S5. -/
theorem c8_algorithm_selection_witness :
    ([[65, 65, 65], [67, 67, 67]] : List (List Nat)) ≠ [] ∧
    selectAlgorithm false none false [[65, 65, 65], [67, 67, 67]] =
      some (decide (14 ≤ ([[65, 65, 65], [67, 67, 67]] : List (List Nat)).length) ||
        decide (∃ x ∈ ([[65, 65, 65], [67, 67, 67]] : List (List Nat)), 64 < x.length)) :=
  ⟨by decide, (c8_algorithm_selection [[65, 65, 65], [67, 67, 67]] (by decide)).2⟩

/-! ## Claim C9: buffered logger frame property -/

theorem flush_records (l : BufferedLogger) : l.flush.records = l.records := by
  unfold BufferedLogger.flush
  split <;> rfl

theorem flushIfFull_records (l : BufferedLogger) : l.flushIfFull.records = l.records := by
  unfold BufferedLogger.flushIfFull
  split
  · rw [flush_records]
  · rfl

theorem log_record_records (l : BufferedLogger) (s : String) :
    (l.log_record s).records = l.records ++ [s] := by
  unfold BufferedLogger.log_record
  rw [flushIfFull_records]

theorem log_fields_records (l : BufferedLogger) (pre id pat : String) (index : Nat) :
    (l.log_fields pre id pat index).records = l.records ++ [formatFields pre id pat index] := by
  unfold BufferedLogger.log_fields
  rw [flushIfFull_records]

/-- C9: the text logger's in-memory record list holds exactly the formatted
lines of the `log_record`/`log_fields` calls in call order, regardless of the
interleaved flushes and of whether a sink is attached; `flush` empties the
byte buffer when a sink is attached and is the identity when none is. -/
theorem c9_buffered_logger (init : BufferedLogger) (ops : List LogOp) :
    (applyLogOps init ops).records = init.records ++ ops.filterMap logOpLine ∧
    (init.hasWriter = true → init.flush.buffer = "") ∧
    (init.hasWriter = false → init.flush = init) := by
  refine ⟨?_, ?_, ?_⟩
  · induction ops generalizing init with
    | nil => simp [applyLogOps]
    | cons op ops ih =>
      have step : applyLogOps init (op :: ops) = applyLogOps (applyLogOp init op) ops := rfl
      rw [step, ih]
      cases op with
      | record s => simp [applyLogOp, log_record_records, logOpLine]
      | fields pre id pat index => simp [applyLogOp, log_fields_records, logOpLine]
      | doFlush => simp [applyLogOp, flush_records, logOpLine]
  · intro hw
    unfold BufferedLogger.flush
    split <;> rename_i h
    · rfl
    · simp only [hw, true_and] at h
      simpa using h
  · intro hw
    unfold BufferedLogger.flush
    rw [if_neg]
    simp [hw]

/-- Witness for C9: two logged lines and a flush on a sink-attached logger. -/
theorem c9_buffered_logger_witness :
    (applyLogOps
        { buffer := "", hasWriter := true, written := "", bufferSize := 8192, records := [] }
        [.record "r1\n", .doFlush, .fields "f" "id" "p" 3]).records =
      [] ++ ["r1\n", formatFields "f" "id" "p" 3] ∧
    ({ buffer := "x", hasWriter := true, written := "", bufferSize := 8192,
        records := [] } : BufferedLogger).flush.buffer = "" :=
  ⟨(c9_buffered_logger
      { buffer := "", hasWriter := true, written := "", bufferSize := 8192, records := [] }
      [.record "r1\n", .doFlush, .fields "f" "id" "p" 3]).1,
    (c9_buffered_logger
      { buffer := "x", hasWriter := true, written := "", bufferSize := 8192, records := [] }
      []).2.1 rfl⟩

/-! ## Lexicographic byte order: groundwork for C6, C7, C10 -/

theorem lexLe_refl : ∀ a, lexLe a a = true
  | [] => rfl
  | x :: xs => by simp [lexLe, lexLe_refl xs]

theorem lexLe_total : ∀ a b, lexLe a b = true ∨ lexLe b a = true
  | [], _ => .inl rfl
  | _ :: _, [] => .inr rfl
  | a :: as, b :: bs => by
    by_cases h1 : a < b
    · left; simp [lexLe, h1]
    · by_cases h2 : b < a
      · right; simp [lexLe, h2]
      · have hab : a = b := by omega
        subst hab
        rcases lexLe_total as bs with h | h
        · left; simp [lexLe, h]
        · right; simp [lexLe, h]

theorem lexLe_trans : ∀ a b c, lexLe a b = true → lexLe b c = true → lexLe a c = true
  | [], _, _, _, _ => rfl
  | _ :: _, [], _, h, _ => by simp [lexLe] at h
  | _ :: _, _ :: _, [], _, h2 => by simp [lexLe] at h2
  | a :: as, b :: bs, c :: cs, h1, h2 => by
    simp only [lexLe] at h1 h2 ⊢
    rcases Nat.lt_trichotomy a b with hab | hab | hab
    · have hbc : b ≤ c := by
        by_contra hc
        rw [if_neg (by omega), if_pos (by omega)] at h2
        exact absurd h2 (by simp)
      rw [if_pos (by omega)]
    · subst hab
      rw [if_neg (by omega), if_neg (by omega)] at h1
      rcases Nat.lt_trichotomy a c with hac | hac | hac
      · rw [if_pos hac]
      · subst hac
        rw [if_neg (by omega), if_neg (by omega)] at h2 ⊢
        exact lexLe_trans as bs cs h1 h2
      · rw [if_neg (by omega), if_pos hac] at h2
        exact absurd h2 (by simp)
    · rw [if_neg (by omega), if_pos hab] at h1
      exact absurd h1 (by simp)

theorem lexLe_antisymm : ∀ a b, lexLe a b = true → lexLe b a = true → a = b
  | [], [], _, _ => rfl
  | [], _ :: _, _, h2 => by simp [lexLe] at h2
  | _ :: _, [], h1, _ => by simp [lexLe] at h1
  | a :: as, b :: bs, h1, h2 => by
    simp only [lexLe] at h1 h2
    rcases Nat.lt_trichotomy a b with hab | hab | hab
    · rw [if_neg (by omega), if_pos hab] at h2
      exact absurd h2 (by simp)
    · subst hab
      rw [if_neg (by omega), if_neg (by omega)] at h1 h2
      rw [lexLe_antisymm as bs h1 h2]
    · rw [if_neg (by omega), if_pos hab] at h1
      exact absurd h1 (by simp)

theorem mem_insertLex (x y : List Nat) : ∀ l, (y ∈ insertLex x l ↔ y = x ∨ y ∈ l)
  | [] => by simp [insertLex]
  | z :: zs => by
    unfold insertLex
    split
    · simp
    · rw [List.mem_cons, mem_insertLex x y zs, List.mem_cons]
      tauto

theorem chain'_le_insertLex (x : List Nat) :
    ∀ l, List.Chain' (fun a b => lexLe a b = true) l →
      List.Chain' (fun a b => lexLe a b = true) (insertLex x l)
  | [], _ => by simp [insertLex]
  | y :: ys, h => by
    unfold insertLex
    split <;> rename_i hxy
    · exact List.Chain'.cons hxy h
    · have hyx : lexLe y x = true := by
        rcases lexLe_total x y with h' | h'
        · exact absurd h' hxy
        · exact h'
      have htail := chain'_le_insertLex x ys (List.chain'_cons'.mp h).2
      apply List.chain'_cons'.mpr
      refine ⟨?_, htail⟩
      intro z hz
      cases ys with
      | nil => simp [insertLex] at hz; subst hz; exact hyx
      | cons w ws =>
        unfold insertLex at hz
        split at hz <;> simp at hz <;> subst hz
        · exact hyx
        · exact ((List.chain'_cons'.mp h).1 w rfl)

theorem chain'_sortLex : ∀ l, List.Chain' (fun a b => lexLe a b = true) (sortLex l)
  | [] => by simp [sortLex]
  | x :: xs => chain'_le_insertLex x (sortLex xs) (chain'_sortLex xs)

theorem mem_sortLex (y : List Nat) : ∀ l, (y ∈ sortLex l ↔ y ∈ l)
  | [] => by simp [sortLex]
  | x :: xs => by
    unfold sortLex
    rw [mem_insertLex, mem_sortLex y xs, List.mem_cons]

theorem insertLex_of_head (x : List Nat) (l : List (List Nat))
    (h : ∀ z ∈ l.head?, lexLe x z = true) : insertLex x l = x :: l := by
  cases l with
  | nil => rfl
  | cons y ys =>
    unfold insertLex
    rw [if_pos (h y rfl)]

theorem sortLex_of_chain' : ∀ l, List.Chain' (fun a b => lexLe a b = true) l → sortLex l = l
  | [], _ => rfl
  | x :: xs, h => by
    unfold sortLex
    rw [sortLex_of_chain' xs (List.chain'_cons'.mp h).2]
    exact insertLex_of_head x xs (List.chain'_cons'.mp h).1

theorem dedupAdj_of_ne : ∀ l, List.Chain' (fun a b => a ≠ b) l → dedupAdj l = l
  | [], _ => rfl
  | [_], _ => rfl
  | a :: b :: r, h => by
    have hab : a ≠ b := (List.chain'_cons.mp h).1
    rw [dedupAdj, if_neg hab, dedupAdj_of_ne (b :: r) (List.chain'_cons.mp h).2]

theorem mem_dedupAdj (y : List Nat) : ∀ l, (y ∈ dedupAdj l ↔ y ∈ l)
  | [] => Iff.rfl
  | [_] => Iff.rfl
  | a :: b :: r => by
    rw [dedupAdj]
    split <;> rename_i hab
    · subst hab
      rw [mem_dedupAdj y (a :: r)]
      simp
    · rw [List.mem_cons, mem_dedupAdj y (b :: r)]
      simp

theorem dedupAdj_head : ∀ (l : List (List Nat)) (a : List Nat),
    ∃ tl, dedupAdj (a :: l) = a :: tl
  | [], _ => ⟨[], rfl⟩
  | b :: r, a => by
    by_cases hab : a = b
    · subst hab
      obtain ⟨tl, htl⟩ := dedupAdj_head r a
      exact ⟨tl, by rw [dedupAdj, if_pos rfl, htl]⟩
    · exact ⟨dedupAdj (b :: r), by rw [dedupAdj, if_neg hab]⟩

theorem chain'_strict_dedupAdj :
    ∀ l, List.Chain' (fun a b => lexLe a b = true) l →
      List.Chain' (fun a b => lexLe a b = true ∧ a ≠ b) (dedupAdj l)
  | [], _ => by simp [dedupAdj]
  | [a], _ => by simp [dedupAdj]
  | a :: b :: r, h => by
    have hle : lexLe a b = true := (List.chain'_cons.mp h).1
    have ht := (List.chain'_cons.mp h).2
    by_cases hab : a = b
    · rw [dedupAdj, if_pos hab]
      exact chain'_strict_dedupAdj (b :: r) ht
    · rw [dedupAdj, if_neg hab]
      obtain ⟨tl, htl⟩ := dedupAdj_head r b
      rw [htl]
      apply List.chain'_cons.mpr
      refine ⟨⟨hle, hab⟩, ?_⟩
      rw [← htl]
      exact chain'_strict_dedupAdj (b :: r) ht

/-! ## Claim C7: pattern-preparation idempotence and shape -/

/-- C7: with no transforms, preparing an already-prepared list (sorted,
duplicate-free, no empty strings, non-empty) is the identity; in general the
prepared output is sorted, free of adjacent duplicates and empty strings, and
non-empty, and the only failure is the `EmptyPatternSet` error, raised exactly
when nothing survives.  The out-of-scope transform functions are arbitrary. -/
theorem preparePatterns_ok {zs l : List (List Nat)} (h : preparePatterns zs = .ok l) :
    l = dedupAdj (sortLex (zs.filter fun x => !x.isEmpty)) ∧ l ≠ [] := by
  unfold preparePatterns at h
  split at h <;> rename_i hempty
  · exact absurd h (by simp)
  · cases h
    exact ⟨rfl, by simpa [List.isEmpty_iff] using hempty⟩

theorem preparePatterns_cases (zs : List (List Nat)) :
    (∃ l, preparePatterns zs = .ok l) ∨
      preparePatterns zs = .error "No k-mers found in file or provided sequence." := by
  unfold preparePatterns
  split
  · right; rfl
  · left; exact ⟨_, rfl⟩

/-- C7: with no transforms, preparing an already-prepared list (sorted,
duplicate-free, no empty strings, non-empty) is the identity; in general the
prepared output is sorted, free of adjacent duplicates and empty strings, and
non-empty, and the only failure is the `EmptyPatternSet` error.  The
out-of-scope transform functions are arbitrary. -/
theorem c7_parse_pattern_list (xs : List (List Nat))
    (hs : List.Chain' (fun a b => lexLe a b = true ∧ a ≠ b) xs)
    (hnoempty : [] ∉ xs) (hne : xs ≠ []) :
    (∀ tL tU rC cn, parse_pattern_list tL tU rC cn xs false false false false = .ok xs) ∧
    (∀ tL tU rC cn ys rc c lc uc l,
      parse_pattern_list tL tU rC cn ys rc c lc uc = .ok l →
        List.Chain' (fun a b => lexLe a b = true ∧ a ≠ b) l ∧ [] ∉ l ∧ l ≠ []) ∧
    (∀ tL tU rC cn ys rc c lc uc,
      (∃ l, parse_pattern_list tL tU rC cn ys rc c lc uc = .ok l) ∨
        parse_pattern_list tL tU rC cn ys rc c lc uc =
          .error "No k-mers found in file or provided sequence.") := by
  refine ⟨?_, ?_, ?_⟩
  · intro tL tU rC cn
    show preparePatterns xs = .ok xs
    have hfilter : xs.filter (fun x => !x.isEmpty) = xs := by
      apply List.filter_eq_self.mpr
      intro x hx
      have : x ≠ [] := fun h => hnoempty (h ▸ hx)
      simp [List.isEmpty_iff, this]
    have hsorted : sortLex xs = xs :=
      sortLex_of_chain' xs (List.Chain'.imp (fun a b h => h.1) hs)
    have hdedup : dedupAdj xs = xs :=
      dedupAdj_of_ne xs (List.Chain'.imp (fun a b h => h.2) hs)
    unfold preparePatterns
    rw [hfilter, hsorted, hdedup, if_neg (by simp [List.isEmpty_iff, hne])]
  · intro tL tU rC cn ys rc c lc uc l hok
    obtain ⟨hl, hlne⟩ := preparePatterns_ok hok
    refine ⟨?_, ?_, hlne⟩
    · rw [hl]
      exact chain'_strict_dedupAdj _ (chain'_sortLex _)
    · rw [hl]
      intro hmem
      rw [mem_dedupAdj, mem_sortLex] at hmem
      have := List.of_mem_filter hmem
      simp [List.isEmpty_iff] at this
  · intro tL tU rC cn ys rc c lc uc
    exact preparePatterns_cases _

/-- Witness for C7 at the prepared list `["AAA", "CCC"]`. -/
theorem c7_parse_pattern_list_witness :
    List.Chain' (fun a b => lexLe a b = true ∧ a ≠ b) ([[65, 65, 65], [67, 67, 67]] : List (List Nat)) ∧
    ([] : List Nat) ∉ ([[65, 65, 65], [67, 67, 67]] : List (List Nat)) ∧
    (∀ tL tU rC cn, parse_pattern_list tL tU rC cn [[65, 65, 65], [67, 67, 67]]
        false false false false = .ok [[65, 65, 65], [67, 67, 67]]) := by
  have hs : List.Chain' (fun (a b : List Nat) => lexLe a b = true ∧ a ≠ b)
      [[65, 65, 65], [67, 67, 67]] :=
    List.chain'_cons.mpr ⟨⟨by decide, by decide⟩, List.chain'_singleton _⟩
  exact ⟨hs, by decide,
    (c7_parse_pattern_list [[65, 65, 65], [67, 67, 67]] hs (by decide) (by decide)).1⟩

/-! ## Claims C6 and C10: tag driver record tagging -/

/-- C6 counterexample: with one newly matched pattern `"b"` and a pre-existing
tag whose string value is empty, the code attaches `"b"`
(`cmd_tag.rs:470-490` skips an empty prior value), while the claim's recipe --
split the pre-existing value on `','` and take the sorted unique union --
yields `",b"` (Rust splits the empty string into one empty entry). -/
theorem c6_counterexample :
    processRecordTagValue [[98]] (some (TagValue.str [])) false false = .ok (some [98]) ∧
    specTagValue [[98]] (some (TagValue.str [])) = [44, 98] ∧
    ([98] : List Nat) ≠ [44, 98] :=
  ⟨rfl, by decide, by decide⟩

/-- C6 amended: for every kept record with a valid (string or absent) prior
tag, the attached value is the comma-join of a list that is strictly sorted in
byte-lexicographic order (hence duplicate-free) and whose members are exactly
the union of the newly matched patterns and the entries of the prior value --
where a *non-empty* prior string value is split on `','` and an empty or
absent one contributes nothing.  The value is a pure function of the inputs,
hence deterministic. -/
theorem c6_tag_value (kf : List (List Nat)) (prior : Option TagValue)
    (fm iv : Bool) (hkeep : shouldKeep fm iv kf = true)
    (hprior : prior ≠ some TagValue.other) :
    processRecordTagValue kf prior fm iv =
      .ok (some (joinComma (dedupAdj (sortLex (kf ++ priorEntries prior))))) ∧
    List.Chain' (fun a b => lexLe a b = true ∧ a ≠ b)
      (dedupAdj (sortLex (kf ++ priorEntries prior))) ∧
    (∀ x, x ∈ dedupAdj (sortLex (kf ++ priorEntries prior)) ↔
      x ∈ kf ∨ x ∈ priorEntries prior) := by
  refine ⟨?_, chain'_strict_dedupAdj _ (chain'_sortLex _), ?_⟩
  · unfold processRecordTagValue
    rw [if_neg (by simp [hkeep])]
    match prior with
    | none => simp [updatedKmers, priorEntries]
    | some (TagValue.str []) => simp [updatedKmers, priorEntries]
    | some (TagValue.str (c :: v)) => simp [updatedKmers, priorEntries]
    | some TagValue.other => exact absurd rfl hprior
  · intro x
    rw [mem_dedupAdj, mem_sortLex, List.mem_append]

/-- Witness for C6: one new match `"b"` and prior value `"c,a"`. -/
theorem c6_tag_value_witness :
    shouldKeep false false [[98]] = true ∧
    processRecordTagValue [[98]] (some (TagValue.str [99, 44, 97])) false false =
      .ok (some (joinComma (dedupAdj (sortLex ([[98]] ++
        priorEntries (some (TagValue.str [99, 44, 97]))))))) :=
  ⟨by decide,
    (c6_tag_value [[98]] (some (TagValue.str [99, 44, 97])) false false
      (by decide) (by simp)).1⟩

/-- C10: every record that passes gating and carries no invalid prior tag
value has the tag pushed before writing; a kept record with no matches and no
prior tag gets the empty string value; an empty prior string value is
equivalent to an absent tag. -/
theorem c10_tag_always_pushed :
    (∀ kf prior fm iv, shouldKeep fm iv kf = true → prior ≠ some TagValue.other →
      ∃ v, processRecordTagValue kf prior fm iv = .ok (some v)) ∧
    (∀ fm iv, shouldKeep fm iv [] = true →
      processRecordTagValue [] none fm iv = .ok (some [])) ∧
    (∀ kf fm iv,
      processRecordTagValue kf (some (TagValue.str [])) fm iv =
        processRecordTagValue kf none fm iv) := by
  refine ⟨?_, ?_, ?_⟩
  · intro kf prior fm iv hkeep hprior
    unfold processRecordTagValue
    rw [if_neg (by simp [hkeep])]
    match prior with
    | none => exact ⟨_, rfl⟩
    | some (TagValue.str []) => exact ⟨_, rfl⟩
    | some (TagValue.str (c :: v)) => exact ⟨_, rfl⟩
    | some TagValue.other => exact absurd rfl hprior
  · intro fm iv hkeep
    unfold processRecordTagValue
    rw [if_neg (by simp [hkeep])]
    rfl
  · intro kf fm iv
    unfold processRecordTagValue
    rfl

/-- Witness for C10: a kept record with no matches and no prior tag. -/
theorem c10_tag_always_pushed_witness :
    shouldKeep false false [] = true ∧
    processRecordTagValue [] none false false = .ok (some []) :=
  ⟨by decide, c10_tag_always_pushed.2.1 false false (by decide)⟩

/-! ## Claim C2: extract per-pattern hit counters -/

/-- C2 counterexample: one record `"aaa"`, one pattern `"aa"` occurring twice
(overlapping).  Under the Aho-Corasick extract path the pattern's hit counter
entry rises from 0 to 2 in this single record, so it is not incremented at
most once per (pattern, record) pair. -/
theorem c2_counterexample :
    extractACHitCounts [[97, 97]] [0] [97, 97, 97] = [2] ∧ ¬ (2 : Nat) ≤ 0 + 1 :=
  ⟨by decide, by decide⟩

theorem foldl_set_count (ms : List (Nat × Nat)) (counts : List Nat) (idx : Nat)
    (hidx : idx < counts.length) :
    (ms.foldl (fun cs mt => cs.set mt.1 (cs.getD mt.1 0 + 1)) counts).getD idx 0 =
      counts.getD idx 0 + (ms.filter fun mt => mt.1 = idx).length := by
  induction ms generalizing counts with
  | nil => simp
  | cons mt ms ih =>
    simp only [List.foldl_cons]
    rw [ih _ (by simpa using hidx)]
    by_cases h : mt.1 = idx
    · rw [List.filter_cons_of_pos (by simp [h]), h, getD_set_eq, if_pos ⟨rfl, hidx⟩]
      simp [Nat.add_assoc, Nat.add_comm 1]
    · rw [List.filter_cons_of_neg (by simp [h]), getD_set_eq, if_neg (by tauto)]

theorem foldl_ite_incr (P : Nat → Prop) [DecidablePred P] (l : List Nat)
    (hl : l.Nodup) (counts : List Nat) (idx : Nat) :
    (l.foldl (fun cs i => if P i then cs.set i (cs.getD i 0 + 1) else cs) counts).getD idx 0 =
      counts.getD idx 0 +
        (if idx ∈ l ∧ P idx ∧ idx < counts.length then 1 else 0) := by
  induction l generalizing counts with
  | nil => simp
  | cons i l ih =>
    simp only [List.foldl_cons]
    have hnd := (List.nodup_cons.mp hl).2
    have hni := (List.nodup_cons.mp hl).1
    by_cases hPi : P i
    · rw [if_pos hPi, ih hnd]
      rw [getD_set_eq]
      simp only [List.length_set]
      by_cases h : i = idx
      · have hidxl : idx ∉ l := h ▸ hni
        by_cases hlen : i < counts.length
        · rw [if_pos ⟨h, hlen⟩,
            if_neg (by rintro ⟨hmem, -, -⟩; exact hidxl hmem),
            if_pos ⟨by rw [← h]; exact List.mem_cons_self i l, h ▸ hPi, h ▸ hlen⟩, h]
        · rw [if_neg (by tauto),
            if_neg (by rintro ⟨-, -, hc⟩; exact hlen (h ▸ hc)),
            if_neg (by rintro ⟨-, -, hc⟩; exact hlen (h ▸ hc))]
      · rw [if_neg (by tauto)]
        by_cases hc : idx ∈ l ∧ P idx ∧ idx < counts.length
        · rw [if_pos hc, if_pos ⟨List.mem_cons_of_mem i hc.1, hc.2⟩]
        · rw [if_neg hc, if_neg (by
            rintro ⟨hmem, hP, hlen2⟩
            rcases List.mem_cons.mp hmem with h' | h'
            · exact h h'.symm
            · exact hc ⟨h', hP, hlen2⟩)]
    · rw [if_neg hPi, ih hnd]
      by_cases hc : idx ∈ l ∧ P idx ∧ idx < counts.length
      · rw [if_pos hc, if_pos ⟨List.mem_cons_of_mem i hc.1, hc.2⟩]
      · rw [if_neg hc, if_neg (by
          rintro ⟨hmem, hP, hlen2⟩
          rcases List.mem_cons.mp hmem with h' | h'
          · exact hPi (h' ▸ hP)
          · exact hc ⟨h', hP, hlen2⟩)]

/-- C2 amended: in the extract driver with logging active, the BNDMq path
increments each per-pattern hit counter entry at most once per record, but the
Aho-Corasick path increments the entry once per overlapping hit occurrence,
i.e. by the number of matches of that pattern in the record. -/
theorem c2_hit_counters (pqs : List (List Nat × Nat)) (patterns : List (List Nat))
    (counts : List Nat) (t : List Nat) (idx : Nat) (hidx : idx < counts.length) :
    ((extractBndmqHitCounts pqs counts t).getD idx 0 = counts.getD idx 0 ∨
      (extractBndmqHitCounts pqs counts t).getD idx 0 = counts.getD idx 0 + 1) ∧
    (extractACHitCounts patterns counts t).getD idx 0 =
      counts.getD idx 0 +
        ((acFindOverlapping patterns t).filter fun mt => mt.1 = idx).length := by
  constructor
  · unfold extractBndmqHitCounts
    rw [foldl_ite_incr _ _ (List.nodup_range _) counts idx]
    split
    · right; rfl
    · left; rfl
  · exact foldl_set_count _ _ _ hidx

/-- Witness for C2 at the counterexample record. -/
theorem c2_hit_counters_witness :
    (0 : Nat) < 1 ∧
    (extractACHitCounts [[97, 97]] [0] [97, 97, 97]).getD 0 0 =
      ([0] : List Nat).getD 0 0 +
        ((acFindOverlapping [[97, 97]] [97, 97, 97]).filter fun mt => mt.1 = 0).length :=
  ⟨by decide,
    (c2_hit_counters [([97, 97], 1)] [[97, 97]] [0] [97, 97, 97] 0 (by decide)).2⟩

/-! ## Claim C5: patterns of length exactly the word width -/

set_option maxRecDepth 8000 in
/-- C5: at `m = W = 64` the mask construction succeeds and BNDMq finds the
correct occurrences, but legacy `BNDM::find_all` computes `(1 << m) - 1`
whose shift amount overflows the 64-bit word: under Rust release semantics
(shift amount masked) the initial state is `0` and the search finds nothing,
where the naive scan (and the spec) demand `[0]`; debug builds panic at the
same expression.  Evaluated at pattern = text = 64 bytes `'a'`. -/
theorem c5_word_width_boundary :
    generate_masks (List.replicate 64 97) =
      .ok (masksFun (List.replicate 64 97), acceptMask (List.replicate 64 97)) ∧
    bndmqFindAll (List.replicate 64 97) (List.replicate 64 97) 6 = [0] ∧
    naiveOccs (List.replicate 64 97) (List.replicate 64 97) = [0] ∧
    bndmFindAll (List.replicate 64 97) (List.replicate 64 97) = [] :=
  ⟨by simp [generate_masks], by decide, by decide, by decide⟩

/-! ## Claim C1 groundwork: state-mask characterization -/

theorem seedState_testBit (p t : List Nat) (q i b : Nat)
    (hq : 1 ≤ q) (hqm : q ≤ p.length) (hm : p.length ≤ 64) (hi : 1 ≤ i) :
    ((seedState p t q i).testBit b = true) ↔
      (b < p.length ∧ q - 1 ≤ b ∧
        ∀ v, v < q → p.getD (p.length - 1 - b + v) 0 = t.getD (i - 1 + v) 0) := by
  unfold seedState
  rw [foldl_and_testBit, Bool.and_eq_true, List.all_eq_true]
  constructor
  · rintro ⟨h0, hall⟩
    have h0' := (masksFun_testBit _ _ _).mp h0
    have hb : b < p.length := h0'.1
    have hq1b : q - 1 ≤ b := by
      by_contra hlt
      have hbq : b < q - 1 := by omega
      have := hall b (by rw [List.mem_range]; omega)
      rw [Nat.testBit_mod_two_pow, Nat.testBit_shiftLeft] at this
      simp only [Bool.and_eq_true, decide_eq_true_eq] at this
      omega
    refine ⟨hb, hq1b, ?_⟩
    intro v hv
    rcases Nat.eq_zero_or_pos v with hv0 | hvpos
    · subst hv0
      simpa using h0'.2
    · have hii : v - 1 ∈ List.range (q - 1) := by rw [List.mem_range]; omega
      have hterm := hall (v - 1) hii
      rw [Nat.testBit_mod_two_pow, Nat.testBit_shiftLeft] at hterm
      simp only [Bool.and_eq_true, decide_eq_true_eq] at hterm
      obtain ⟨-, hvb, hmask⟩ := hterm
      have hm' := (masksFun_testBit _ _ _).mp hmask
      have hidx1 : p.length - 1 - (b - (v - 1 + 1)) = p.length - 1 - b + v := by omega
      have hidx2 : i + (v - 1) = i - 1 + v := by omega
      rw [hidx1, hidx2] at hm'
      exact hm'.2
  · rintro ⟨hb, hq1b, hchar⟩
    constructor
    · apply (masksFun_testBit _ _ _).mpr
      refine ⟨hb, ?_⟩
      simpa using hchar 0 (by omega)
    · intro ii hii
      rw [List.mem_range] at hii
      rw [Nat.testBit_mod_two_pow, Nat.testBit_shiftLeft]
      have hchar' := hchar (ii + 1) (by omega)
      simp only [Bool.and_eq_true, decide_eq_true_eq]
      refine ⟨by omega, by omega, ?_⟩
      apply (masksFun_testBit _ _ _).mpr
      refine ⟨by omega, ?_⟩
      have hidx1 : p.length - 1 - (b - (ii + 1)) = p.length - 1 - b + (ii + 1) := by omega
      have hidx2 : i - 1 + (ii + 1) = i + ii := by omega
      rw [← hidx1, hidx2] at hchar'
      exact hchar'

theorem stateAt_testBit (p t : List Nat) (q i : Nat)
    (hq : 1 ≤ q) (hqm : q ≤ p.length) (hm : p.length ≤ 64)
    (hs : p.length - q + 1 ≤ i) :
    ∀ k, k < p.length - q + 1 → ∀ b,
      ((stateAt p t q i k).testBit b = true ↔
        (b < p.length ∧ k + q - 1 ≤ b ∧
          ∀ v, v < k + q → p.getD (p.length - 1 - b + v) 0 = t.getD (i - 1 - k + v) 0)) := by
  intro k
  induction k with
  | zero =>
    intro _ b
    have hi : 1 ≤ i := by omega
    rw [show stateAt p t q i 0 = seedState p t q i from rfl,
      seedState_testBit p t q i b hq hqm hm hi]
    constructor
    · rintro ⟨h1, h2, h3⟩
      refine ⟨h1, by omega, ?_⟩
      intro v hv
      rw [show i - 1 - 0 + v = i - 1 + v by omega]
      exact h3 v (by omega)
    · rintro ⟨h1, h2, h3⟩
      refine ⟨h1, by omega, ?_⟩
      intro v hv
      rw [show i - 1 + v = i - 1 - 0 + v by omega]
      exact h3 v (by omega)
  | succ k ih =>
    intro hk b
    have hks : k < p.length - q + 1 := by omega
    have hik : k + 2 ≤ i := by omega
    rw [show stateAt p t q i (k + 1) =
      ((stateAt p t q i k <<< 1) % 2 ^ 64) &&& masksFun p (t.getD (i - k - 2) 0) from rfl]
    rw [Nat.testBit_and, Bool.and_eq_true, Nat.testBit_mod_two_pow, Nat.testBit_shiftLeft]
    simp only [Bool.and_eq_true, decide_eq_true_eq]
    constructor
    · rintro ⟨⟨hb64, h1b, hprev⟩, hmask⟩
      have hm' := (masksFun_testBit _ _ _).mp hmask
      have hprev' := (ih hks (b - 1)).mp hprev
      obtain ⟨hbm, hkqb, hchar⟩ := hprev'
      refine ⟨hm'.1, by omega, ?_⟩
      intro v hv
      rcases Nat.eq_zero_or_pos v with hv0 | hvpos
      · subst hv0
        rw [show p.length - 1 - b + 0 = p.length - 1 - b by omega,
          show i - 1 - (k + 1) + 0 = i - k - 2 by omega]
        exact hm'.2
      · have hchar' := hchar (v - 1) (by omega)
        rw [show p.length - 1 - (b - 1) + (v - 1) = p.length - 1 - b + v by omega,
          show i - 1 - k + (v - 1) = i - 1 - (k + 1) + v by omega] at hchar'
        exact hchar'
    · rintro ⟨hbm, hkqb, hchar⟩
      have hb1 : 1 ≤ b := by omega
      refine ⟨⟨by omega, hb1, ?_⟩, ?_⟩
      · apply (ih hks (b - 1)).mpr
        refine ⟨by omega, by omega, ?_⟩
        intro v hv
        have hchar' := hchar (v + 1) (by omega)
        rw [show p.length - 1 - b + (v + 1) = p.length - 1 - (b - 1) + v by omega,
          show i - 1 - (k + 1) + (v + 1) = i - 1 - k + v by omega] at hchar'
        exact hchar'
      · apply (masksFun_testBit _ _ _).mpr
        refine ⟨hbm, ?_⟩
        have hchar' := hchar 0 (by omega)
        rw [show p.length - 1 - b + 0 = p.length - 1 - b by omega,
          show i - 1 - (k + 1) + 0 = i - k - 2 by omega] at hchar'
        exact hchar'

theorem stateAt_lt (p t : List Nat) (q i : Nat)
    (hq : 1 ≤ q) (hqm : q ≤ p.length) (hm : p.length ≤ 64)
    (hs : p.length - q + 1 ≤ i) (k : Nat) (hk : k < p.length - q + 1) :
    stateAt p t q i k < 2 ^ p.length := by
  apply lt_two_pow_of_bits
  intro b hb
  by_contra hbit
  have hbit' : (stateAt p t q i k).testBit b = true := by
    revert hbit; cases (stateAt p t q i k).testBit b <;> simp
  have := ((stateAt_testBit p t q i hq hqm hm hs k hk b).mp hbit').1
  omega

theorem stateAt_zero_succ (p t : List Nat) (q i k : Nat)
    (h : stateAt p t q i k = 0) : stateAt p t q i (k + 1) = 0 := by
  rw [show stateAt p t q i (k + 1) =
    ((stateAt p t q i k <<< 1) % 2 ^ 64) &&& masksFun p (t.getD (i - k - 2) 0) from rfl, h]
  simp

theorem stateAt_zero_mono (p t : List Nat) (q i k : Nat)
    (h : stateAt p t q i k = 0) : ∀ k2, k ≤ k2 → stateAt p t q i k2 = 0 := by
  intro k2 hk2
  induction k2 with
  | zero => exact (Nat.le_zero.mp hk2) ▸ h
  | succ k2 ih =>
    rcases Nat.lt_or_ge k (k2 + 1) with h' | h'
    · exact stateAt_zero_succ p t q i k2 (ih (by omega))
    · exact (by omega : k = k2 + 1) ▸ h

theorem stateAt_s_zero (p t : List Nat) (q i : Nat)
    (hq : 1 ≤ q) (hqm : q ≤ p.length) (hm : p.length ≤ 64)
    (hs : p.length - q + 1 ≤ i) :
    stateAt p t q i (p.length - q + 1) = 0 := by
  have hrw : p.length - q + 1 = (p.length - q) + 1 := rfl
  rw [hrw, show stateAt p t q i (p.length - q + 1) =
    ((stateAt p t q i (p.length - q) <<< 1) % 2 ^ 64) &&&
      masksFun p (t.getD (i - (p.length - q) - 2) 0) from rfl]
  apply Nat.eq_of_testBit_eq
  intro b
  rw [Nat.testBit_and, Nat.testBit_mod_two_pow, Nat.testBit_shiftLeft, Nat.zero_testBit]
  simp only [Bool.and_eq_false_iff, Bool.and_eq_false_iff, decide_eq_false_iff_not]
  by_cases hmask : ((masksFun p (t.getD (i - (p.length - q) - 2) 0)).testBit b) = true
  · have hbm := ((masksFun_testBit _ _ _).mp hmask).1
    left
    by_cases hb1 : 1 ≤ b
    · by_cases hb64 : b < 64
      · right; right
        cases hstate : (stateAt p t q i (p.length - q)).testBit (b - 1)
        · rfl
        · exfalso
          have := ((stateAt_testBit p t q i hq hqm hm hs (p.length - q)
            (by omega) (b - 1)).mp hstate).2.1
          omega
      · left; omega
    · right; left; omega
  · right
    cases hm2 : (masksFun p (t.getD (i - (p.length - q) - 2) 0)).testBit b
    · rfl
    · exact absurd hm2 hmask

theorem testBit_ne_zero {x b : Nat} (h : x.testBit b = true) : x ≠ 0 := by
  intro h0
  rw [h0, Nat.zero_testBit] at h
  exact Bool.false_ne_true h

/-! ## Claim C1 groundwork: occurrences and the accept bit -/

theorem occ_bits (p t : List Nat) (q i pos : Nat)
    (hq : 1 ≤ q) (hqm : q ≤ p.length) (hm : p.length ≤ 64)
    (hs : p.length - q + 1 ≤ i)
    (hp1 : i - (p.length - q + 1) ≤ pos) (hp2 : pos < i)
    (hocc : occursAt p t pos) :
    ∀ k, k ≤ i - pos - 1 →
      (stateAt p t q i k).testBit (p.length - (i - pos) + k) = true := by
  intro k hk
  have hd1 : 1 ≤ i - pos := by omega
  have hds : i - pos ≤ p.length - q + 1 := by omega
  have hdm : i - pos ≤ p.length := by omega
  apply (stateAt_testBit p t q i hq hqm hm hs k (by omega)
    (p.length - (i - pos) + k)).mpr
  refine ⟨by omega, by omega, ?_⟩
  intro v hv
  have hw : p.length - 1 - (p.length - (i - pos) + k) + v = (i - pos) - 1 - k + v := by
    omega
  rw [hw]
  have hwlt : (i - pos) - 1 - k + v < p.length := by omega
  have := hocc.2 ((i - pos) - 1 - k + v) hwlt
  rw [show pos + ((i - pos) - 1 - k + v) = i - 1 - k + v by omega] at this
  exact this

theorem occ_accept (p t : List Nat) (q i pos : Nat)
    (hq : 1 ≤ q) (hqm : q ≤ p.length) (hm : p.length ≤ 64)
    (hs : p.length - q + 1 ≤ i)
    (hp1 : i - (p.length - q + 1) ≤ pos) (hp2 : pos < i)
    (hocc : occursAt p t pos) :
    (stateAt p t q i (i - pos - 1)).testBit (p.length - 1) = true := by
  have := occ_bits p t q i pos hq hqm hm hs hp1 hp2 hocc (i - pos - 1) (le_refl _)
  rw [show p.length - (i - pos) + (i - pos - 1) = p.length - 1 by omega] at this
  exact this

theorem occ_alive (p t : List Nat) (q i pos : Nat)
    (hq : 1 ≤ q) (hqm : q ≤ p.length) (hm : p.length ≤ 64)
    (hs : p.length - q + 1 ≤ i)
    (hp1 : i - (p.length - q + 1) ≤ pos) (hp2 : pos < i)
    (hocc : occursAt p t pos) :
    ∀ k, k ≤ i - pos - 1 → stateAt p t q i k ≠ 0 :=
  fun k hk => testBit_ne_zero (occ_bits p t q i pos hq hqm hm hs hp1 hp2 hocc k hk)

theorem accept_occurs (p t : List Nat) (q i : Nat)
    (hq : 1 ≤ q) (hqm : q ≤ p.length) (hm : p.length ≤ 64)
    (hs : p.length - q + 1 ≤ i) (hn : i ≤ t.length - q + 1) (hmn : p.length ≤ t.length)
    (hacc : (stateAt p t q i (p.length - q + 1 - 1)).testBit (p.length - 1) = true) :
    occursAt p t (i - (p.length - q + 1)) := by
  have hchar := (stateAt_testBit p t q i hq hqm hm hs (p.length - q + 1 - 1)
    (by omega) (p.length - 1)).mp hacc
  obtain ⟨-, -, hchar⟩ := hchar
  constructor
  · omega
  · intro v hv
    have := hchar v (by omega)
    rw [show p.length - 1 - (p.length - 1) + v = v by omega,
      show i - 1 - (p.length - q + 1 - 1) + v = i - (p.length - q + 1) + v by omega] at this
    exact this

theorem occ_first_accept (p t : List Nat) (q i : Nat)
    (hq : 1 ≤ q) (hqm : q ≤ p.length) (hm : p.length ≤ 64)
    (hs : p.length - q + 1 ≤ i)
    (hocc : occursAt p t (i - (p.length - q + 1))) :
    (stateAt p t q i (p.length - q + 1 - 1)).testBit (p.length - 1) = true := by
  have h := occ_accept p t q i (i - (p.length - q + 1)) hq hqm hm hs (le_refl _)
    (by omega) hocc
  rw [show i - (i - (p.length - q + 1)) - 1 = p.length - q + 1 - 1 by omega] at h
  exact h

/-! ## Claim C1 groundwork: inner-scan lemmas -/

theorem innerScan_st_le (p t : List Nat) (first : Nat) :
    ∀ j state st, (innerScan p t first j state st).2 ≤ max st j
  | 0, state, st => by simp [innerScan]
  | j + 1, state, st => by
    simp only [innerScan]
    split_ifs with h1 h2 h3 h4
    · exact le_trans (Nat.le_succ j) (le_max_right st (j + 1))
    · exact le_trans (le_trans (innerScan_st_le p t first j _ j) (by simp))
        (le_trans (Nat.le_succ j) (le_max_right st (j + 1)))
    · exact le_max_left st (j + 1)
    · exact le_max_left st (j + 1)
    · exact le_trans (innerScan_st_le p t first j _ st)
        (max_le_max (le_refl st) (Nat.le_succ j))

theorem innerScan_st_ge (p t : List Nat) (first : Nat) :
    ∀ j state st, first + 1 ≤ st → first + 1 ≤ (innerScan p t first j state st).2
  | 0, _, st, h => by simpa [innerScan] using h
  | j + 1, state, st, h => by
    simp only [innerScan]
    split_ifs with h1 h2 h3 h4
    · omega
    · exact innerScan_st_ge p t first j _ j (by omega)
    · simpa using h
    · simpa using h
    · exact innerScan_st_ge p t first j _ st h

theorem innerScan_main (p t : List Nat) (q i : Nat)
    (hq : 1 ≤ q) (hqm : q ≤ p.length) (hm : p.length ≤ 64)
    (hs : p.length - q + 1 ≤ i) :
    ∀ d k st, k + d = p.length - q + 1 - 1 → stateAt p t q i k ≠ 0 →
      ((innerScan p t (i - (p.length - q + 1)) (i - k) (stateAt p t q i k) st).1 =
        (if (stateAt p t q i (p.length - q + 1 - 1)).testBit (p.length - 1) = true
         then some (i - (p.length - q + 1)) else none)) ∧
      (∀ k2, k ≤ k2 → k2 < p.length - q + 1 - 1 →
        (stateAt p t q i k2).testBit (p.length - 1) = true →
        (innerScan p t (i - (p.length - q + 1)) (i - k) (stateAt p t q i k) st).2 ≤
          i - k2 - 1) := by
  intro d
  induction d with
  | zero =>
    intro k st hkd hknz
    have hk : k = p.length - q + 1 - 1 := by omega
    subst hk
    have hik : i - (p.length - q + 1 - 1) = (i - (p.length - q + 1)) + 1 := by omega
    rw [hik]
    simp only [innerScan]
    have hlt := stateAt_lt p t q i hq hqm hm hs (p.length - q + 1 - 1) (by omega)
    have hiff := accept_le_iff (p := p) (by omega) hlt
    cases hacc : (stateAt p t q i (p.length - q + 1 - 1)).testBit (p.length - 1) with
    | true =>
      rw [if_pos (hiff.mpr hacc), if_neg (by omega)]
      exact ⟨rfl, fun k2 h1 h2 _ => by omega⟩
    | false =>
      rw [if_neg (fun hle => by rw [hiff.mp hle] at hacc; cases hacc)]
      have hz : ((stateAt p t q i (p.length - q + 1 - 1) <<< 1) % 2 ^ 64) &&&
          masksFun p (t.getD (i - (p.length - q + 1) - 1) 0) = 0 := by
        have h0 := stateAt_s_zero p t q i hq hqm hm hs
        have hexp : stateAt p t q i ((p.length - q + 1 - 1) + 1) =
            ((stateAt p t q i (p.length - q + 1 - 1) <<< 1) % 2 ^ 64) &&&
              masksFun p (t.getD (i - (p.length - q + 1 - 1) - 2) 0) := rfl
        rw [show (p.length - q + 1 - 1) + 1 = p.length - q + 1 by omega, h0] at hexp
        rw [show i - (p.length - q + 1) - 1 = i - (p.length - q + 1 - 1) - 2 by omega]
        exact hexp.symm
      rw [if_pos hz]
      exact ⟨rfl, fun k2 h1 h2 _ => by omega⟩
  | succ d ih =>
    intro k st hkd hknz
    have hk1 : k + 1 < p.length - q + 1 := by omega
    have hik : i - k = (i - k - 1) + 1 := by omega
    rw [hik]
    simp only [innerScan]
    have hlt := stateAt_lt p t q i hq hqm hm hs k (by omega)
    have hiff := accept_le_iff (p := p) (by omega) hlt
    have hfirst : i - (p.length - q + 1) < i - k - 1 := by omega
    have hstate2 : ((stateAt p t q i k <<< 1) % 2 ^ 64) &&&
        masksFun p (t.getD (i - k - 1 - 1) 0) = stateAt p t q i (k + 1) := by
      rw [show i - k - 1 - 1 = i - k - 2 by omega]
      rfl
    have hmono := stateAt_zero_mono p t q i (k + 1)
    have hsbit : stateAt p t q i (k + 1) = 0 →
        (stateAt p t q i (p.length - q + 1 - 1)).testBit (p.length - 1) = false := by
      intro h0
      rw [hmono h0 (p.length - q + 1 - 1) (by omega), Nat.zero_testBit]
    have hsbit2 : stateAt p t q i (k + 1) = 0 → ∀ k2, k < k2 →
        (stateAt p t q i k2).testBit (p.length - 1) = false := by
      intro h0 k2 hk2
      rw [hmono h0 k2 (by omega), Nat.zero_testBit]
    cases hacc : (stateAt p t q i k).testBit (p.length - 1) with
    | true =>
      rw [if_pos (hiff.mpr hacc), if_pos hfirst, hstate2]
      by_cases hz : stateAt p t q i (k + 1) = 0
      · rw [if_pos hz]
        refine ⟨by rw [hsbit hz]; rfl, ?_⟩
        intro k2 h1 h2 hbit
        rcases Nat.eq_or_lt_of_le h1 with h' | h'
        · subst h'; omega
        · rw [hsbit2 hz k2 h'] at hbit; cases hbit
      · rw [if_neg hz]
        have hrw : i - k - 1 = i - (k + 1) := by omega
        rw [hrw]
        obtain ⟨iha, ihb⟩ := ih (k + 1) (i - (k + 1)) (by omega) hz
        refine ⟨iha, ?_⟩
        intro k2 h1 h2 hbit
        rcases Nat.eq_or_lt_of_le h1 with h' | h'
        · subst h'
          have := innerScan_st_le p t (i - (p.length - q + 1)) (i - (k + 1))
            (stateAt p t q i (k + 1)) (i - (k + 1))
          rw [max_self] at this
          omega
        · exact ihb k2 (by omega) h2 hbit
    | false =>
      rw [if_neg (fun hle => by rw [hiff.mp hle] at hacc; cases hacc), hstate2]
      by_cases hz : stateAt p t q i (k + 1) = 0
      · rw [if_pos hz]
        refine ⟨by rw [hsbit hz]; rfl, ?_⟩
        intro k2 h1 h2 hbit
        rcases Nat.eq_or_lt_of_le h1 with h' | h'
        · subst h'; rw [hacc] at hbit; cases hbit
        · rw [hsbit2 hz k2 h'] at hbit; cases hbit
      · rw [if_neg hz]
        have hrw : i - k - 1 = i - (k + 1) := by omega
        rw [hrw]
        obtain ⟨iha, ihb⟩ := ih (k + 1) st (by omega) hz
        refine ⟨iha, ?_⟩
        intro k2 h1 h2 hbit
        rcases Nat.eq_or_lt_of_le h1 with h' | h'
        · subst h'; rw [hacc] at hbit; cases hbit
        · exact ihb k2 (by omega) h2 hbit

/-! ## Claim C1: correctness of the iterator's next step -/

theorem bndmqNextGo_correct (p t : List Nat) (q : Nat)
    (hq : 1 ≤ q) (hqm : q ≤ p.length) (hm : p.length ≤ 64) :
    ∀ fuel i, p.length - q + 1 ≤ i → t.length - q + 2 - i ≤ fuel →
      ((∀ pos, occursAt p t pos → pos < i - (p.length - q + 1)) →
          bndmqNextGo p t q fuel i = none) ∧
      (∀ pos, occursAt p t pos → i - (p.length - q + 1) ≤ pos →
        (∀ pos2, occursAt p t pos2 → i - (p.length - q + 1) ≤ pos2 → pos ≤ pos2) →
        ∃ i2, bndmqNextGo p t q fuel i = some (pos, i2) ∧ i < i2 ∧
          p.length - q + 1 ≤ i2 ∧ pos + (p.length - q + 1) < i2 ∧
          ∀ pos2, occursAt p t pos2 → pos < pos2 →
            i2 - (p.length - q + 1) ≤ pos2) := by
  intro fuel
  induction fuel with
  | zero =>
    intro i hi hfuel
    constructor
    · intro _; rfl
    · intro pos hocc hge _
      exfalso
      have h1 := hocc.1
      omega
  | succ fuel ih =>
    intro i hi hfuel
    by_cases hmn : p.length > t.length
    · constructor
      · intro _; simp [bndmqNextGo, hmn]
      · intro pos hocc _ _
        exfalso
        have := hocc.1
        omega
    · by_cases hwin : i ≤ t.length - q + 1
      case neg =>
        constructor
        · intro _; simp [bndmqNextGo, hmn, hwin]
        · intro pos hocc hge _
          exfalso
          have := hocc.1
          omega
      case pos =>
        have hmn' : p.length ≤ t.length := by omega
        by_cases hseed : seedState p t q i = 0
        case pos =>
          have hnoocc : ∀ pos, i - (p.length - q + 1) ≤ pos → pos < i →
              ¬occursAt p t pos := by
            intro pos h1 h2 hocc
            exact (occ_alive p t q i pos hq hqm hm hi h1 h2 hocc 0 (by omega))
              (by rw [show stateAt p t q i 0 = seedState p t q i from rfl]; exact hseed)
          have hstep : bndmqNextGo p t q (fuel + 1) i =
              bndmqNextGo p t q fuel (i + (p.length - q + 1)) := by
            simp [bndmqNextGo, hmn, hwin, hseed]
          obtain ⟨iha, ihb⟩ := ih (i + (p.length - q + 1)) (by omega) (by omega)
          constructor
          · intro hno
            rw [hstep]
            apply iha
            intro pos hocc
            have := hno pos hocc
            omega
          · intro pos hocc hge hleast
            have hposi : i ≤ pos := by
              by_contra hlt
              exact hnoocc pos hge (by omega) hocc
            rw [hstep]
            obtain ⟨i2, heq, hlt2, hsle2, hps2, hgap⟩ := ihb pos hocc (by omega)
              (fun pos2 ho2 hg2 => hleast pos2 ho2 (by omega))
            exact ⟨i2, heq, by omega, hsle2, hps2, hgap⟩
        case neg =>
          have hknz : stateAt p t q i 0 ≠ 0 := by
            rw [show stateAt p t q i 0 = seedState p t q i from rfl]; exact hseed
          obtain ⟨hmain_a, hmain_b⟩ := innerScan_main p t q i hq hqm hm hi
            (p.length - q + 1 - 1) 0 i (by omega) hknz
          rw [show stateAt p t q i 0 = seedState p t q i from rfl,
            show i - 0 = i by omega] at hmain_a hmain_b
          rcases hscan : innerScan p t (i - (p.length - q + 1)) i (seedState p t q i) i
            with ⟨emit, st⟩
          rw [hscan] at hmain_a hmain_b
          have hstle : st ≤ i := by
            have h := innerScan_st_le p t (i - (p.length - q + 1)) i (seedState p t q i) i
            rw [hscan, max_self] at h
            exact h
          have hstge : i - (p.length - q + 1) + 1 ≤ st := by
            have h := innerScan_st_ge p t (i - (p.length - q + 1)) i (seedState p t q i) i
              (by omega)
            rw [hscan] at h
            exact h
          have hstore : ∀ pos2, occursAt p t pos2 →
              i - (p.length - q + 1) < pos2 → pos2 < i → st ≤ pos2 := by
            intro pos2 ho2 hg2 hpi
            have hbit := occ_accept p t q i pos2 hq hqm hm hi (by omega) hpi ho2
            have h2 : st ≤ i - (i - pos2 - 1) - 1 :=
              hmain_b (i - pos2 - 1) (by omega) (by omega) hbit
            omega
          cases emit with
          | some j =>
            have hja : some j = (if (stateAt p t q i (p.length - q + 1 - 1)).testBit
                (p.length - 1) = true
              then some (i - (p.length - q + 1)) else none) := hmain_a
            have hj_acc : j = i - (p.length - q + 1) ∧
                (stateAt p t q i (p.length - q + 1 - 1)).testBit (p.length - 1) = true := by
              cases hb : (stateAt p t q i (p.length - q + 1 - 1)).testBit (p.length - 1) with
              | true =>
                rw [hb, if_pos rfl] at hja
                exact ⟨Option.some.inj hja, rfl⟩
              | false =>
                rw [hb] at hja
                simp at hja
            have hoccfirst : occursAt p t (i - (p.length - q + 1)) :=
              accept_occurs p t q i hq hqm hm hi hwin hmn' hj_acc.2
            have hstep : bndmqNextGo p t q (fuel + 1) i =
                some (j, st + (p.length - q + 1)) := by
              simp [bndmqNextGo, hmn, hwin, hseed, hscan]
            constructor
            · intro hno
              exact absurd (hno _ hoccfirst) (by omega)
            · intro pos hocc hge hleast
              have hposeq : pos = i - (p.length - q + 1) :=
                le_antisymm (hleast _ hoccfirst (le_refl _)) hge
              refine ⟨st + (p.length - q + 1), ?_, by omega, by omega, by omega, ?_⟩
              · rw [hstep, hposeq, hj_acc.1]
              · intro pos2 ho2 hg2
                have hle2 : st ≤ pos2 := by
                  rcases Nat.lt_or_ge pos2 i with hpi | hpi
                  · exact hstore pos2 ho2 (by omega) hpi
                  · omega
                omega
          | none =>
            have hna : (none : Option Nat) =
                (if (stateAt p t q i (p.length - q + 1 - 1)).testBit (p.length - 1) = true
                 then some (i - (p.length - q + 1)) else none) := hmain_a
            have haccS : (stateAt p t q i (p.length - q + 1 - 1)).testBit
                (p.length - 1) = false := by
              cases hb : (stateAt p t q i (p.length - q + 1 - 1)).testBit (p.length - 1) with
              | true =>
                rw [hb, if_pos rfl] at hna
                cases hna
              | false => rfl
            have hnoccfirst : ¬occursAt p t (i - (p.length - q + 1)) := by
              intro ho
              rw [occ_first_accept p t q i hq hqm hm hi ho] at haccS
              cases haccS
            have hoccge : ∀ pos2, occursAt p t pos2 →
                i - (p.length - q + 1) ≤ pos2 → st ≤ pos2 := by
              intro pos2 ho2 hg2
              rcases Nat.lt_or_ge pos2 i with hpi | hpi
              · have hne : pos2 ≠ i - (p.length - q + 1) := fun h => hnoccfirst (h ▸ ho2)
                exact hstore pos2 ho2 (by omega) hpi
              · omega
            have hstep : bndmqNextGo p t q (fuel + 1) i =
                bndmqNextGo p t q fuel (st + (p.length - q + 1)) := by
              simp [bndmqNextGo, hmn, hwin, hseed, hscan]
            obtain ⟨iha, ihb⟩ := ih (st + (p.length - q + 1)) (by omega) (by omega)
            constructor
            · intro hno
              rw [hstep]
              apply iha
              intro pos hocc
              have := hno pos hocc
              omega
            · intro pos hocc hge hleast
              have hge2 : st ≤ pos := hoccge pos hocc hge
              rw [hstep]
              obtain ⟨i2, heq, hlt2, hsle2, hps2, hgap⟩ := ihb pos hocc (by omega)
                (fun pos2 ho2 hg2 => hleast pos2 ho2 (by omega))
              exact ⟨i2, heq, by omega, hsle2, hps2, hgap⟩

/-! ## Claim C1: assembling the full match list -/

theorem mem_naiveOccs (p t : List Nat) (pos : Nat) :
    pos ∈ naiveOccs p t ↔ occursAt p t pos := by
  unfold naiveOccs
  rw [List.mem_filter, List.mem_range]
  constructor
  · rintro ⟨-, h⟩
    exact of_decide_eq_true h
  · intro h
    have := h.1
    exact ⟨by omega, decide_eq_true h⟩

theorem naiveOccs_pairwise (p t : List Nat) : (naiveOccs p t).Pairwise (· < ·) :=
  (List.pairwise_lt_range _).filter _

theorem exists_least_occ (p t : List Nat) (a : Nat)
    (h : ∃ pos, occursAt p t pos ∧ a ≤ pos) :
    ∃ pos, occursAt p t pos ∧ a ≤ pos ∧
      ∀ pos2, occursAt p t pos2 → a ≤ pos2 → pos ≤ pos2 := by
  have hspec := Nat.find_spec h
  exact ⟨Nat.find h, hspec.1, hspec.2,
    fun pos2 ho2 hg2 => Nat.find_min' h ⟨ho2, hg2⟩⟩

theorem filter_least_split (l : List Nat) (j a b : Nat) :
    l.Pairwise (· < ·) → j ∈ l → a ≤ j → j < b →
    (∀ x ∈ l, a ≤ x → j ≤ x) → (∀ x ∈ l, j < x → b ≤ x) →
    l.filter (fun x => decide (a ≤ x)) = j :: l.filter (fun x => decide (b ≤ x)) := by
  induction l with
  | nil => intro _ hj; cases hj
  | cons y l ih =>
    intro hpw hj haj hjb hleast hgap
    have hpw' := (List.pairwise_cons.mp hpw).2
    have hylt := (List.pairwise_cons.mp hpw).1
    rcases List.mem_cons.mp hj with hyj | hjl
    · subst hyj
      rw [List.filter_cons_of_pos (by simpa using haj),
        List.filter_cons_of_neg (by simp; omega)]
      congr 1
      have hall : ∀ x ∈ l, (decide (a ≤ x)) = true ∧ (decide (b ≤ x)) = true := by
        intro x hx
        have hyx := hylt x hx
        have hbx := hgap x (List.mem_cons_of_mem _ hx) hyx
        constructor <;> simp <;> omega
      rw [List.filter_eq_self.mpr fun x hx => (hall x hx).1,
        List.filter_eq_self.mpr fun x hx => (hall x hx).2]
    · have hyltj : y < j := hylt j hjl
      have hnay : ¬(a ≤ y) := by
        intro hay
        have := hleast y (List.mem_cons_self y l) hay
        omega
      rw [List.filter_cons_of_neg (by simpa using hnay),
        List.filter_cons_of_neg (by simp; omega)]
      exact ih hpw' hjl haj hjb
        (fun x hx hax => hleast x (List.mem_cons_of_mem y hx) hax)
        (fun x hx hjx => hgap x (List.mem_cons_of_mem y hx) hjx)

theorem bndmqMatchesGo_correct (p t : List Nat) (q : Nat)
    (hq : 1 ≤ q) (hqm : q ≤ p.length) (hm : p.length ≤ 64) :
    ∀ fuel i, p.length - q + 1 ≤ i → t.length - q + 2 - i ≤ fuel →
      bndmqMatchesGo p t q fuel i =
        (naiveOccs p t).filter (fun pos => decide (i - (p.length - q + 1) ≤ pos)) := by
  intro fuel
  induction fuel with
  | zero =>
    intro i hi hfuel
    rw [show bndmqMatchesGo p t q 0 i = [] from rfl]
    symm
    rw [List.filter_eq_nil_iff]
    intro pos hpos
    have hocc := (mem_naiveOccs p t pos).mp hpos
    have := hocc.1
    simp only [decide_eq_true_eq]
    omega
  | succ fuel ih =>
    intro i hi hfuel
    have hnext := bndmqNextGo_correct p t q hq hqm hm (t.length + 1) i hi (by omega)
    cases hcase : bndmqNext p t q i with
    | none =>
      have hnone : ∀ pos, occursAt p t pos → pos < i - (p.length - q + 1) := by
        by_contra hex
        push_neg at hex
        obtain ⟨pos0, ho0, hg0⟩ := hex
        obtain ⟨pos, hoL, hgL, hleastL⟩ := exists_least_occ p t
          (i - (p.length - q + 1)) ⟨pos0, ho0, hg0⟩
        obtain ⟨i2, heq, -⟩ := hnext.2 pos hoL hgL hleastL
        rw [show bndmqNextGo p t q (t.length + 1) i = bndmqNext p t q i from rfl,
          hcase] at heq
        cases heq
      rw [show bndmqMatchesGo p t q (fuel + 1) i =
        (match bndmqNext p t q i with
         | none => []
         | some ji => ji.1 :: bndmqMatchesGo p t q fuel ji.2) from rfl, hcase]
      symm
      rw [List.filter_eq_nil_iff]
      intro pos hpos
      have := hnone pos ((mem_naiveOccs p t pos).mp hpos)
      simp only [decide_eq_true_eq]
      omega
    | some ji =>
      rcases ji with ⟨j, i2⟩
      have hex : ∃ pos, occursAt p t pos ∧ i - (p.length - q + 1) ≤ pos := by
        by_contra hno
        push_neg at hno
        have := hnext.1 (fun pos ho => by have := hno pos ho; omega)
        rw [show bndmqNextGo p t q (t.length + 1) i = bndmqNext p t q i from rfl,
          hcase] at this
        cases this
      obtain ⟨pos, hoL, hgL, hleastL⟩ := exists_least_occ p t
        (i - (p.length - q + 1)) hex
      obtain ⟨i2', heq, hlt2, hsle2, hps2, hgap⟩ := hnext.2 pos hoL hgL hleastL
      rw [show bndmqNextGo p t q (t.length + 1) i = bndmqNext p t q i from rfl,
        hcase] at heq
      have hpair : (j, i2) = (pos, i2') := Option.some.inj heq
      have hj : j = pos := congrArg Prod.fst hpair
      have hi2v : i2 = i2' := congrArg Prod.snd hpair
      rw [show bndmqMatchesGo p t q (fuel + 1) i =
        (match bndmqNext p t q i with
         | none => []
         | some ji => ji.1 :: bndmqMatchesGo p t q fuel ji.2) from rfl, hcase]
      have hih := ih i2' (by omega) (by omega)
      show j :: bndmqMatchesGo p t q fuel i2 = _
      rw [hj, hi2v, hih]
      symm
      exact filter_least_split (naiveOccs p t) pos (i - (p.length - q + 1))
        (i2' - (p.length - q + 1))
        (naiveOccs_pairwise p t) ((mem_naiveOccs p t pos).mpr hoL) hgL (by omega)
        (fun x hx hax => hleastL x ((mem_naiveOccs p t x).mp hx) hax)
        (fun x hx hjx => hgap x ((mem_naiveOccs p t x).mp hx) hjx)

theorem bndmqFindMatchGo_eq (p t : List Nat) (q : Nat) :
    ∀ fuel i, bndmqFindMatchGo p t q fuel i = (bndmqNextGo p t q fuel i).isSome
  | 0, i => rfl
  | fuel + 1, i => by
    simp only [bndmqFindMatchGo, bndmqNextGo]
    by_cases hmn : p.length > t.length
    · simp [hmn]
    · by_cases hwin : i ≤ t.length - q + 1
      · simp only [hmn, if_false, hwin, if_true]
        by_cases hseed : seedState p t q i = 0
        · simp only [hseed, if_true]
          exact bndmqFindMatchGo_eq p t q fuel _
        · simp only [hseed, if_false]
          rcases hscan : innerScan p t (i - (p.length - q + 1)) i (seedState p t q i) i
            with ⟨emit, st⟩
          cases emit with
          | some j => simp
          | none => simpa using bndmqFindMatchGo_eq p t q fuel _
      · simp [hmn, hwin]

/-- C1: for every pattern `p`, q-gram width `q` with `1 ≤ q ≤ m ≤ 64` and
every text, the BNDMq match iterator collects exactly the start offsets of the
naive substring scan (all occurrences, overlaps included, in strictly
increasing left-to-right order), and `find_match` returns `true` iff at least
one occurrence exists. -/
theorem c1_bndmq_matches_naive (p t : List Nat) (q : Nat)
    (hq : 1 ≤ q) (hqm : q ≤ p.length) (hw : p.length ≤ 64) :
    bndmqFindAll p t q = naiveOccs p t ∧
    (bndmqFindMatch p t q = true ↔ naiveOccs p t ≠ []) := by
  have hall : bndmqFindAll p t q = naiveOccs p t := by
    unfold bndmqFindAll
    rw [bndmqMatchesGo_correct p t q hq hqm hw (t.length + 2) (p.length - q + 1)
      (le_refl _) (by omega)]
    apply List.filter_eq_self.mpr
    intro x _
    simp
  refine ⟨hall, ?_⟩
  have hmatch : bndmqFindMatch p t q = (bndmqNext p t q (p.length - q + 1)).isSome :=
    bndmqFindMatchGo_eq p t q (t.length + 1) (p.length - q + 1)
  have hunroll : bndmqFindAll p t q =
      (match bndmqNext p t q (p.length - q + 1) with
       | none => []
       | some ji => ji.1 :: bndmqMatchesGo p t q (t.length + 1) ji.2) := rfl
  rw [hmatch, ← hall, hunroll]
  cases bndmqNext p t q (p.length - q + 1) with
  | none => simp
  | some ji => simp

/-- Witness for C1: pattern `"abc"`, text `"aabcabcabc"`, `q = 2`
(scenario S2). -/
theorem c1_bndmq_matches_naive_witness :
    (1 ≤ 2 ∧ 2 ≤ ([97, 98, 99] : List Nat).length ∧
      ([97, 98, 99] : List Nat).length ≤ 64) ∧
    bndmqFindAll [97, 98, 99] [97, 97, 98, 99, 97, 98, 99, 97, 98, 99] 2 =
      naiveOccs [97, 98, 99] [97, 97, 98, 99, 97, 98, 99, 97, 98, 99] :=
  ⟨⟨by decide, by decide, by decide⟩,
    (c1_bndmq_matches_naive [97, 98, 99] [97, 97, 98, 99, 97, 98, 99, 97, 98, 99] 2
      (by decide) (by decide) (by decide)).1⟩
